import Mathlib

/-!
# Verification of the AI-attribution and aggregation engine

Shallow embedding of the client-side GitHub data pipeline
(`fetchCommitDataClient` and its helpers): the AI-tool detector,
the Claude-model extractor, the PR-label resolver, and the
leaderboard aggregator.  Network fetching is out of scope: the
embedded functions take the fetched commits / search results as
explicit arguments.  JavaScript strings are modelled as `String`
(lists of characters); case-insensitive regex matching is modelled
by lowercasing (ASCII) and matching lowercase patterns, which agrees
with JS `/i` semantics on ASCII text.
-/

/-- The `AITool` union type from the source. -/
inductive AITool
  | claudeCoauthor
  | claudeGenerated
  | copilot
  | cursor
  | codex
  | gemini
deriving DecidableEq

/-- The `ClaudeModel` union type from the source. -/
inductive ClaudeModel
  | opus
  | sonnet
  | haiku
  | unknown
deriving DecidableEq

/-- ASCII lowercasing of a character, modelling JS `toLowerCase` on ASCII. -/
def lowerChar (c : Char) : Char := c.toLower

/-- Lowercase a whole character list. -/
def lowerChars (s : List Char) : List Char := s.map lowerChar

/-- `beginsWith pat s` is true when `pat` is an initial segment of `s`. -/
def beginsWith : List Char → List Char → Bool
  | [], _ => true
  | _ :: _, [] => false
  | a :: as, b :: bs => a == b && beginsWith as bs

/-- `strIncludes pat s`: `pat` occurs as a contiguous substring of `s`.
Models JS `String.prototype.includes`. -/
def strIncludes (pat : List Char) : List Char → Bool
  | [] => beginsWith pat []
  | c :: rest => beginsWith pat (c :: rest) || strIncludes pat rest

/-- Whitespace test modelling the ASCII part of the regex class `\s`. -/
def isWS (c : Char) : Bool :=
  c == ' ' || c == '\t' || c == '\n' || c == '\r' || c == '\x0b' || c == '\x0c'

/-- Drop leading whitespace: models a `\s*` whose follower is not whitespace. -/
def dropWS (s : List Char) : List Char := s.dropWhile isWS

/-- `afterLit pat s`: if `pat` is an initial segment of `s`, the rest of `s`. -/
def afterLit : List Char → List Char → Option (List Char)
  | [], s => some s
  | _ :: _, [] => none
  | a :: as, b :: bs => if a == b then afterLit as bs else none

/-- `toChar c s`: models the regex fragment `[^c]*c` — skip characters other
than `c`, then consume one `c`; the rest is returned. -/
def toChar (c : Char) : List Char → Option (List Char)
  | [] => none
  | a :: rest => if a == c then some rest else toChar c rest

/-- `seekLit bad lit s`: models the regex fragment `[^bad]*lit` — true when
`lit` occurs in `s` preceded only by characters other than `bad`. -/
def seekLit (bad : Char) (lit : List Char) : List Char → Bool
  | [] => beginsWith lit []
  | a :: rest =>
    if beginsWith lit (a :: rest) then true
    else if a == bad then false
    else seekLit bad lit rest

/-- `regexSearch p s`: true when `p` matches at some position of `s`.
Models the `test` of an unanchored regex. -/
def regexSearch (p : List Char → Bool) : List Char → Bool
  | [] => p []
  | c :: rest => p (c :: rest) || regexSearch p rest

/-- Anchored match of `/co-authored-by:\s*claude[^<]*<[^>]*@anthropic\.com>/`
on an already-lowercased character list. -/
def claudeMatchAt (s : List Char) : Bool :=
  match afterLit "co-authored-by:".data s with
  | none => false
  | some r1 =>
    match afterLit "claude".data (dropWS r1) with
    | none => false
    | some r2 =>
      match toChar '<' r2 with
      | none => false
      | some r3 => seekLit '>' "@anthropic.com>".data r3

/-- The source's `claudeCoAuthorRegex.test(message)` (case-insensitive). -/
def claudeCoAuthorTest (message : String) : Bool :=
  regexSearch claudeMatchAt (lowerChars message.data)

/-- Anchored match of `/co-authored-by:\s*copilot\s*</` on an
already-lowercased character list. -/
def copilotMatchAt (s : List Char) : Bool :=
  match afterLit "co-authored-by:".data s with
  | none => false
  | some r1 =>
    match afterLit "copilot".data (dropWS r1) with
    | none => false
    | some r2 =>
      match dropWS r2 with
      | '<' :: _ => true
      | _ => false

/-- The source's `copilotCoAuthorRegex.test(message)` (case-insensitive). -/
def copilotCoAuthorTest (message : String) : Bool :=
  regexSearch copilotMatchAt (lowerChars message.data)

/-- Anchored match of `/co-authored-by:\s*cursor\s*<[^>]*@cursor\.com>/`
on an already-lowercased character list. -/
def cursorMatchAt (s : List Char) : Bool :=
  match afterLit "co-authored-by:".data s with
  | none => false
  | some r1 =>
    match afterLit "cursor".data (dropWS r1) with
    | none => false
    | some r2 =>
      match dropWS r2 with
      | '<' :: r3 => seekLit '>' "@cursor.com>".data r3
      | _ => false

/-- The source's `cursorCoAuthorRegex.test(message)` (case-insensitive). -/
def cursorCoAuthorTest (message : String) : Bool :=
  regexSearch cursorMatchAt (lowerChars message.data)

/-- `extractClaudeModel` from the source: scan the lowercased message for
the substrings `claude opus` / `claude sonnet` / `claude haiku`, in that
order; default `unknown`. -/
def extractClaudeModel (message : String) : ClaudeModel :=
  let lowerMessage := lowerChars message.data
  if strIncludes "claude opus".data lowerMessage then .opus
  else if strIncludes "claude sonnet".data lowerMessage then .sonnet
  else if strIncludes "claude haiku".data lowerMessage then .haiku
  else .unknown

/-- The result record of `detectAITool`. -/
structure Detection where
  aiTool : AITool
  claudeModel : Option ClaudeModel
deriving DecidableEq

/-- `detectAITool` from the source: ordered first-match classification of a
commit message. -/
def detectAITool (message : String) : Option Detection :=
  let lowerMessage := lowerChars message.data
  if claudeCoAuthorTest message then
    some { aiTool := .claudeCoauthor, claudeModel := some (extractClaudeModel message) }
  else if strIncludes "generated with [claude code]".data lowerMessage
       || strIncludes "generated with claude code".data lowerMessage then
    some { aiTool := .claudeGenerated, claudeModel := some .unknown }
  else if copilotCoAuthorTest message then
    some { aiTool := .copilot, claudeModel := none }
  else if cursorCoAuthorTest message then
    some { aiTool := .cursor, claudeModel := none }
  else
    none

example : detectAITool "Fix bug\n\nCo-authored-by: Claude Opus 4.5 <noreply@anthropic.com>"
    = some { aiTool := .claudeCoauthor, claudeModel := some .opus } := by decide

example : detectAITool "Add feature\n\nGenerated with [Claude Code]"
    = some { aiTool := .claudeGenerated, claudeModel := some .unknown } := by decide

example : detectAITool "Update docs" = none := by decide

example : detectAITool "x\n\nCo-authored-by: Copilot <copilot@github.com>"
    = some { aiTool := .copilot, claudeModel := none } := by decide

example : detectAITool "x\n\nCo-authored-by: Cursor <hi@cursor.com>"
    = some { aiTool := .cursor, claudeModel := none } := by decide

/-- A repository reference (`Repository` interface in the source). -/
structure Repository where
  owner : String
  name : String
  displayName : String
deriving DecidableEq

/-- The non-null part of a GitHub commit's `author` object. -/
structure CommitAuthor where
  login : String
  avatar_url : String
deriving DecidableEq

/-- A fetched commit (`GitHubCommit & \x7b repository \x7d` in the source),
with the nested `commit.message` / `commit.author.date` fields flattened. -/
structure GitHubCommit where
  sha : String
  message : String
  date : String
  repository : String
  author : Option CommitAuthor
deriving DecidableEq

/-- The login the aggregator uses for a commit: `commit.author?.login`
under JS truthiness, so a missing author and an empty login both yield
`none`. -/
def loginOf (c : GitHubCommit) : Option String :=
  match c.author with
  | some a => if a.login = "" then none else some a.login
  | none => none

/-- The avatar of a commit's author (only consulted when a login exists). -/
def avatarOf (c : GitHubCommit) : String :=
  match c.author with
  | some a => a.avatar_url
  | none => ""

/-- JS `a || b` on an optional string `a`: an absent or empty string falls
through to `b`. -/
def jsOrS (a : Option String) (b : String) : String :=
  match a with
  | some s => if s = "" then b else s
  | none => b

/-- The `AIToolBreakdown` record: one counter per known tool. -/
structure AIToolBreakdown where
  claudeCoauthor : Nat
  claudeGenerated : Nat
  copilot : Nat
  cursor : Nat
  codex : Nat
  gemini : Nat
deriving DecidableEq

/-- `emptyToolBreakdown()` from the source. -/
def emptyToolBreakdown : AIToolBreakdown :=
  { claudeCoauthor := 0, claudeGenerated := 0, copilot := 0
    cursor := 0, codex := 0, gemini := 0 }

/-- `breakdown[tool]++` from the source. -/
def incTool (t : AITool) (b : AIToolBreakdown) : AIToolBreakdown :=
  match t with
  | .claudeCoauthor => { b with claudeCoauthor := b.claudeCoauthor + 1 }
  | .claudeGenerated => { b with claudeGenerated := b.claudeGenerated + 1 }
  | .copilot => { b with copilot := b.copilot + 1 }
  | .cursor => { b with cursor := b.cursor + 1 }
  | .codex => { b with codex := b.codex + 1 }
  | .gemini => { b with gemini := b.gemini + 1 }

/-- Sum of all counters of a tool breakdown. -/
def sumTool (b : AIToolBreakdown) : Nat :=
  b.claudeCoauthor + b.claudeGenerated + b.copilot + b.cursor + b.codex + b.gemini

/-- The `ClaudeModelBreakdown` record: one counter per model variant. -/
structure ClaudeModelBreakdown where
  opus : Nat
  sonnet : Nat
  haiku : Nat
  unknown : Nat
deriving DecidableEq

/-- `emptyModelBreakdown()` from the source. -/
def emptyModelBreakdown : ClaudeModelBreakdown :=
  { opus := 0, sonnet := 0, haiku := 0, unknown := 0 }

/-- `breakdown[model]++` from the source. -/
def incModel (v : ClaudeModel) (b : ClaudeModelBreakdown) : ClaudeModelBreakdown :=
  match v with
  | .opus => { b with opus := b.opus + 1 }
  | .sonnet => { b with sonnet := b.sonnet + 1 }
  | .haiku => { b with haiku := b.haiku + 1 }
  | .unknown => { b with unknown := b.unknown + 1 }

/-- `if (claudeModel) breakdown[claudeModel]++` from the source. -/
def incModelOpt (v : Option ClaudeModel) (b : ClaudeModelBreakdown) : ClaudeModelBreakdown :=
  match v with
  | some m => incModel m b
  | none => b

/-- Sum of all counters of a model breakdown. -/
def sumModel (b : ClaudeModelBreakdown) : Nat :=
  b.opus + b.sonnet + b.haiku + b.unknown

/-- Association-list lookup, modelling JS `Map.get`. -/
def lookupA {β : Type} (k : String) : List (String × β) → Option β
  | [] => none
  | (k', v) :: rest => if k' = k then some v else lookupA k rest

/-- Association-list update, modelling JS `Map.set(k, f (Map.get k))`:
an existing key keeps its position and gets the updated value, a new key
is appended at the end (JS `Map` preserves insertion order). -/
def upsert {β : Type} (k : String) (f : Option β → β) : List (String × β) → List (String × β)
  | [] => [(k, f none)]
  | (k', v) :: rest => if k' = k then (k', f (some v)) :: rest else (k', v) :: upsert k f rest

/-- One AI-attributed commit, as accumulated in `aiCommitsWithTool`. -/
structure AICommitEntry where
  commit : GitHubCommit
  aiTool : AITool
  claudeModel : Option ClaudeModel
deriving DecidableEq

/-- The message-detection pass over `allCommits`: every commit whose message
`detectAITool` classifies contributes one entry, in input order. -/
def detectedEntries (commits : List GitHubCommit) : List AICommitEntry :=
  commits.filterMap fun c =>
    (detectAITool c.message).map fun d =>
      { commit := c, aiTool := d.aiTool, claudeModel := d.claudeModel }

/-- A PR-label result (`PRLabelResult` in the source). -/
structure PRLabelResult where
  sha : String
  username : String
  aiTool : AITool
  repo : String
  date : String
deriving DecidableEq

/-- One insertion into the `commitBySHA` index. -/
def indexStep (m : List (String × GitHubCommit)) (c : GitHubCommit) :
    List (String × GitHubCommit) :=
  upsert c.sha (fun _ => c) m

/-- The `commitBySHA` index built with `new Map(allCommits.map(c => [c.sha, c]))`:
a later commit with the same SHA overwrites an earlier one. -/
def commitIndex (commits : List GitHubCommit) : List (String × GitHubCommit) :=
  commits.foldl indexStep []

/-- State of the PR-label reconciliation loop: the accumulated
`aiCommitsWithTool` entries and the `detectedSHAs` set. -/
structure EnrichState where
  entries : List AICommitEntry
  shas : List String
deriving DecidableEq

/-- One iteration of the PR-label reconciliation loop in
`fetchCommitDataClient`: skip already-classified SHAs, skip merge commits
outside the fetched window, otherwise classify with the label's tool
(no model). -/
def applyPRStep (index : List (String × GitHubCommit)) (st : EnrichState)
    (pr : PRLabelResult) : EnrichState :=
  if st.shas.contains pr.sha then st
  else
    match lookupA pr.sha index with
    | none => st
    | some c =>
      { entries := st.entries ++ [{ commit := c, aiTool := pr.aiTool, claudeModel := none }]
        shas := st.shas ++ [pr.sha] }

/-- The full `aiCommitsWithTool` list: message-detected entries followed by
the PR-label-derived ones. -/
def aiEntries (commits : List GitHubCommit) (prs : List PRLabelResult) : List AICommitEntry :=
  (prs.foldl (applyPRStep (commitIndex commits))
    { entries := detectedEntries commits
      shas := (detectedEntries commits).map (·.commit.sha) }).entries

/-- The global `aiToolBreakdown`: in the source each classified commit
increments the shared accumulator exactly once (during detection or during
PR-label reconciliation), so it is the fold of `incTool` over `aiEntries`
in encounter order. -/
def globalToolBreakdown (commits : List GitHubCommit) (prs : List PRLabelResult) :
    AIToolBreakdown :=
  (aiEntries commits prs).foldl (fun b e => incTool e.aiTool b) emptyToolBreakdown

/-- The global `claudeModelBreakdown`: incremented only for entries carrying
a model (message-detected Claude commits; PR-derived entries carry none). -/
def globalModelBreakdown (commits : List GitHubCommit) (prs : List PRLabelResult) :
    ClaudeModelBreakdown :=
  (aiEntries commits prs).foldl (fun b e => incModelOpt e.claudeModel b) emptyModelBreakdown

/-- One iteration of the `userTotalCommits` accumulation. -/
def totalsStep (m : List (String × Nat)) (c : GitHubCommit) : List (String × Nat) :=
  match loginOf c with
  | some u => upsert u (fun o => o.getD 0 + 1) m
  | none => m

/-- `userTotalCommits`: per-login total commit counts over all commits,
skipping commits without a usable login. -/
def userTotalCommits (commits : List GitHubCommit) : List (String × Nat) :=
  commits.foldl totalsStep []

/-- One iteration of the `userAllCommitDates` accumulation. -/
def datesStep (m : List (String × List String)) (c : GitHubCommit) :
    List (String × List String) :=
  match loginOf c with
  | some u => upsert u (fun o => o.getD [] ++ [c.date]) m
  | none => m

/-- `userAllCommitDates`: per-login list of all commit dates, in input order. -/
def userAllCommitDates (commits : List GitHubCommit) : List (String × List String) :=
  commits.foldl datesStep []

/-- One iteration of the `userAvatars` accumulation. -/
def avatarsStep (m : List (String × String)) (c : GitHubCommit) : List (String × String) :=
  match loginOf c with
  | some u =>
    if avatarOf c ≠ "" ∧ (lookupA u m).isNone then m ++ [(u, avatarOf c)] else m
  | none => m

/-- `userAvatars`: first non-empty avatar seen per login. -/
def userAvatars (commits : List GitHubCommit) : List (String × String) :=
  commits.foldl avatarsStep []

/-- A rendered AI commit (`CommitDetail` in the source). -/
structure CommitDetail where
  sha : String
  message : String
  date : String
  url : String
  repository : String
  aiTool : AITool
  claudeModel : Option ClaudeModel
deriving DecidableEq

/-- First line of a commit message: `message.split('\n')[0]`. -/
def firstLine (s : String) : String :=
  String.mk (s.data.takeWhile (fun c => c ≠ '\n'))

/-- Build one `CommitDetail`, reconstructing the commit URL from the
repository list as the source does (`'unknown'` when the display name
resolves no repository). -/
def buildCommitDetail (repositories : List Repository) (c : GitHubCommit)
    (t : AITool) (m : Option ClaudeModel) : CommitDetail :=
  let repoInfo := repositories.find? fun r => r.displayName == c.repository
  let repoOwner := jsOrS (repoInfo.map (·.owner)) "unknown"
  let repoName := jsOrS (repoInfo.map (·.name)) "unknown"
  { sha := c.sha
    message := firstLine c.message
    date := c.date
    url := "https://github.com/" ++ repoOwner ++ "/" ++ repoName ++ "/commit/" ++ c.sha
    repository := c.repository
    aiTool := t
    claudeModel := m }

/-- Per-user AI aggregate (the value type of the `userCommits` map). -/
structure UserAIData where
  count : Nat
  avatar : String
  commits : List CommitDetail
  aiToolBreakdown : AIToolBreakdown
  claudeModelBreakdown : ClaudeModelBreakdown
deriving DecidableEq

/-- The map-value update applied for one AI commit entry: start from the
existing aggregate (or the zero aggregate with the commit author's avatar),
bump the count, refresh the avatar, append the commit detail, and increment
the tool and (when present) model buckets. -/
def userCommitsUpdate (repositories : List Repository) (e : AICommitEntry)
    (o : Option UserAIData) : UserAIData :=
  let existing := o.getD
    { count := 0, avatar := avatarOf e.commit, commits := []
      aiToolBreakdown := emptyToolBreakdown
      claudeModelBreakdown := emptyModelBreakdown }
  { count := existing.count + 1
    avatar := avatarOf e.commit
    commits := existing.commits ++
      [buildCommitDetail repositories e.commit e.aiTool e.claudeModel]
    aiToolBreakdown := incTool e.aiTool existing.aiToolBreakdown
    claudeModelBreakdown := incModelOpt e.claudeModel existing.claudeModelBreakdown }

/-- One iteration of the `userCommits` accumulation over `aiCommitsWithTool`. -/
def userCommitsStep (repositories : List Repository)
    (m : List (String × UserAIData)) (e : AICommitEntry) : List (String × UserAIData) :=
  match loginOf e.commit with
  | some u => upsert u (userCommitsUpdate repositories e) m
  | none => m

/-- The `userCommits` map: per-login AI commit aggregates. -/
def userCommitsMap (repositories : List Repository) (entries : List AICommitEntry) :
    List (String × UserAIData) :=
  entries.foldl (userCommitsStep repositories) []

/-- A leaderboard row (`LeaderboardEntry` in the source). -/
structure LeaderboardEntry where
  rank : Nat
  username : String
  commits : Nat
  totalCommits : Nat
  aiPercentage : Nat
  avatar : String
  commitDetails : List CommitDetail
  allCommitDates : List String
  aiToolBreakdown : AIToolBreakdown
  claudeModelBreakdown : ClaudeModelBreakdown
deriving DecidableEq

/-- `Math.round((aiCount / totalCommits) * 100)` on the exact rational value
(round half up). -/
def jsRoundPct (aiCount totalCommits : Nat) : Nat :=
  (200 * aiCount + totalCommits) / (2 * totalCommits)

/-- The unsorted leaderboard rows, one per `userTotalCommits` key, with
`rank` still 0 (assigned after sorting). -/
def entriesBase (repositories : List Repository) (commits : List GitHubCommit)
    (prs : List PRLabelResult) : List LeaderboardEntry :=
  (userTotalCommits commits).map fun p =>
    let username := p.1
    let totalCommits := p.2
    let aiData := lookupA username (userCommitsMap repositories (aiEntries commits prs))
    let aiCount := match aiData with | some d => d.count | none => 0
    { rank := 0
      username := username
      commits := aiCount
      totalCommits := totalCommits
      aiPercentage := if totalCommits > 0 then jsRoundPct aiCount totalCommits else 0
      avatar := jsOrS (aiData.map (·.avatar)) (jsOrS (lookupA username (userAvatars commits)) "")
      commitDetails := match aiData with | some d => d.commits | none => []
      allCommitDates := (lookupA username (userAllCommitDates commits)).getD []
      aiToolBreakdown := match aiData with | some d => d.aiToolBreakdown | none => emptyToolBreakdown
      claudeModelBreakdown := match aiData with | some d => d.claudeModelBreakdown | none => emptyModelBreakdown }

/-- The sort comparator of the source, as a relation: `a` may precede `b`
when `a` has more AI commits, or equally many and at least as many total
commits (comparator value `<= 0`). -/
def entryLe (a b : LeaderboardEntry) : Prop :=
  b.commits < a.commits ∨ (a.commits = b.commits ∧ b.totalCommits ≤ a.totalCommits)

instance : DecidableRel entryLe := fun _a _b =>
  inferInstanceAs (Decidable (_ ∨ _ ∧ _))

instance : IsTotal LeaderboardEntry entryLe :=
  ⟨fun _a _b => by unfold entryLe; omega⟩

instance : IsTrans LeaderboardEntry entryLe :=
  ⟨fun a b c hab hbc => by unfold entryLe at *; omega⟩

/-- `.map((entry, index) => (\x7b rank: index + 1, ...entry \x7d))`, with the
running index made explicit. -/
def assignRanks (n : Nat) : List LeaderboardEntry → List LeaderboardEntry
  | [] => []
  | e :: rest => { e with rank := n } :: assignRanks (n + 1) rest

/-- The final sorted, ranked leaderboard.  JS `Array.prototype.sort` is a
stable sort; for the total, transitive comparator relation `entryLe` the
stable-sorted result is unique, so `List.insertionSort` (also stable)
computes it. -/
def buildLeaderboard (repositories : List Repository) (commits : List GitHubCommit)
    (prs : List PRLabelResult) : List LeaderboardEntry :=
  assignRanks 1 (List.insertionSort entryLe (entriesBase repositories commits prs))

/-- The `LeaderboardData` result record. -/
structure LeaderboardData where
  totalCommits : Nat
  aiCommits : Nat
  aiToolBreakdown : AIToolBreakdown
  claudeModelBreakdown : ClaudeModelBreakdown
  activeUsers : Nat
  leaderboard : List LeaderboardEntry
deriving DecidableEq

/-- `PR_LABEL_TO_TOOL` from the source, as a partial map from label name
to tool. -/
def labelToTool (l : String) : Option AITool :=
  if l = "ai-claude-code" then some .claudeGenerated
  else if l = "ai-codex" then some .codex
  else if l = "ai-codex-cli" then some .codex
  else if l = "ai-copilot" then some .copilot
  else if l = "ai-cursor-agent" then some .cursor
  else if l = "ai-cursor-chat" then some .cursor
  else if l = "ai-gemini-cli" then some .gemini
  else none

/-- `AI_PR_LABELS = Object.keys(PR_LABEL_TO_TOOL)`, in insertion order. -/
def AI_PR_LABELS : List String :=
  ["ai-claude-code", "ai-codex", "ai-codex-cli", "ai-copilot",
   "ai-cursor-agent", "ai-cursor-chat", "ai-gemini-cli"]

/-- A search-API item for a pull request: its number, the names of its
labels (in the PR's own label-list order), and its author login. -/
structure PRItem where
  number : Nat
  labels : List String
  userLogin : Option String
deriving DecidableEq

/-- The PR-details record fetched per item (`merge_commit_sha` may be null;
a failed details fetch is modelled as the whole record being absent). -/
structure PRData where
  mergeCommitSha : Option String
  userLogin : Option String
  mergedAt : Option String
deriving DecidableEq

/-- The dedup key for a PR (the source's template string
owner/name#number). -/
def prKeyOf (repo : Repository) (number : Nat) : String :=
  repo.owner ++ "/" ++ repo.name ++ "#" ++ toString number

/-- State of `fetchAILabeledPRs`: the `seenPRs` set and the `results`
array.  For specification purposes each result is paired with the dedup
key of the PR that produced it; the source function returns only the
results (see `fetchAILabeledPRs`). -/
structure PRState where
  seen : List String
  results : List (String × PRLabelResult)
deriving DecidableEq

/-- Processing of one search item in `fetchAILabeledPRs`: skip PRs already
seen (adding to `seenPRs` happens before the details lookup, so a PR whose
lookup fails is not retried under a later label), skip failed lookups and
null merge SHAs, pick the first label in the PR's own label list that maps
to a tool, and push one result. -/
def processPRItem (lookup : Repository → Nat → Option PRData) (repo : Repository)
    (st : PRState) (item : PRItem) : PRState :=
  let key := prKeyOf repo item.number
  if st.seen.contains key then st
  else
    let st1 : PRState := { st with seen := key :: st.seen }
    match lookup repo item.number with
    | none => st1
    | some prData =>
      match prData.mergeCommitSha with
      | none => st1
      | some mergeSha =>
        match (item.labels.find? fun l => (labelToTool l).isSome).bind labelToTool with
        | none => st1
        | some tool =>
          { st1 with
            results := st1.results ++
              [(key,
                { sha := mergeSha
                  username := jsOrS item.userLogin (jsOrS prData.userLogin "")
                  aiTool := tool
                  repo := repo.displayName
                  date := jsOrS prData.mergedAt "" })] }

/-- `fetchAILabeledPRs` with its results keyed by PR identity.  The network
is abstracted: `search repo label` returns the concatenated items of all
search pages for that (repository, label) query, and `lookup repo number`
the PR-details record (or `none` on a failed fetch).  Items are processed
in order; the source's three-worker pool within a page only reorders
result pushes, and the seen-check plus seen-insert happen without an
intervening await, so sequential processing is a faithful serialization. -/
def fetchAILabeledPRsKeyed (search : Repository → String → List PRItem)
    (lookup : Repository → Nat → Option PRData) (repositories : List Repository) :
    List (String × PRLabelResult) :=
  (repositories.foldl
    (fun st repo =>
      AI_PR_LABELS.foldl
        (fun st label => (search repo label).foldl (processPRItem lookup repo) st)
        st)
    { seen := [], results := [] }).results

/-- `fetchAILabeledPRs` as in the source: just the results. -/
def fetchAILabeledPRs (search : Repository → String → List PRItem)
    (lookup : Repository → Nat → Option PRData) (repositories : List Repository) :
    List PRLabelResult :=
  (fetchAILabeledPRsKeyed search lookup repositories).map Prod.snd

/-- The analysis phase of `fetchCommitDataClient` (everything after the
network fetches): classify, reconcile PR labels, aggregate, sort, rank. -/
def analyzeCommits (repositories : List Repository) (commits : List GitHubCommit)
    (prs : List PRLabelResult) : LeaderboardData :=
  { totalCommits := commits.length
    aiCommits := (aiEntries commits prs).length
    aiToolBreakdown := globalToolBreakdown commits prs
    claudeModelBreakdown := globalModelBreakdown commits prs
    activeUsers := (userTotalCommits commits).length
    leaderboard := buildLeaderboard repositories commits prs }

/-- `fetchCommitDataClient`, with the network abstracted away: `commits` is
the fetched commit stream and `prs` the PR-label results.  The empty
repository list short-circuits to the zeroed result exactly as in the
source. -/
def fetchCommitDataClient (repositories : List Repository)
    (commits : List GitHubCommit) (prs : List PRLabelResult) : LeaderboardData :=
  if repositories = [] then
    { totalCommits := 0
      aiCommits := 0
      aiToolBreakdown := emptyToolBreakdown
      claudeModelBreakdown := emptyModelBreakdown
      activeUsers := 0
      leaderboard := [] }
  else
    analyzeCommits repositories commits prs

/-! ## Generic fold and association-list lemmas -/

theorem foldl_preserve {σ α : Type _} (Inv : σ → Prop) (f : σ → α → σ) :
    ∀ (l : List α) (s : σ), Inv s → (∀ s a, a ∈ l → Inv s → Inv (f s a)) →
      Inv (l.foldl f s)
  | [], _, h0, _ => h0
  | a :: rest, s, h0, hstep =>
    foldl_preserve Inv f rest (f s a) (hstep s a (by simp) h0)
      fun s' b hb h' => hstep s' b (by simp [hb]) h'

theorem lookupA_upsert_self {β : Type} (k : String) (f : Option β → β)
    (l : List (String × β)) : lookupA k (upsert k f l) = some (f (lookupA k l)) := by
  induction l with
  | nil => simp [upsert, lookupA]
  | cons p rest ih =>
    obtain ⟨k', v⟩ := p
    by_cases h : k' = k
    · simp [upsert, lookupA, h]
    · simp [upsert, lookupA, h, ih]

theorem lookupA_upsert_ne {β : Type} {k k' : String} (h : k' ≠ k) (f : Option β → β)
    (l : List (String × β)) : lookupA k' (upsert k f l) = lookupA k' l := by
  induction l with
  | nil => simp [upsert, lookupA, Ne.symm h]
  | cons p rest ih =>
    obtain ⟨a, v⟩ := p
    by_cases ha : a = k
    · subst ha
      simp [upsert, lookupA, Ne.symm h]
    · by_cases ha' : a = k'
      · simp [upsert, lookupA, ha, ha', h]
      · simp [upsert, lookupA, ha, ha', ih]

theorem lookupA_mem {β : Type} {k : String} {v : β} :
    ∀ {l : List (String × β)}, lookupA k l = some v → (k, v) ∈ l := by
  intro l
  induction l with
  | nil => simp [lookupA]
  | cons p rest ih =>
    obtain ⟨a, w⟩ := p
    intro h
    simp only [lookupA] at h
    by_cases ha : a = k
    · rw [if_pos ha] at h
      obtain rfl : w = v := Option.some.inj h
      subst ha
      exact List.mem_cons_self _ _
    · rw [if_neg ha] at h
      exact List.mem_cons_of_mem _ (ih h)

theorem keys_upsert {β : Type} (k : String) (f : Option β → β) (l : List (String × β)) :
    (upsert k f l).map Prod.fst =
      if k ∈ l.map Prod.fst then l.map Prod.fst else l.map Prod.fst ++ [k] := by
  induction l with
  | nil => simp [upsert]
  | cons p rest ih =>
    obtain ⟨a, v⟩ := p
    by_cases ha : a = k
    · subst ha
      simp [upsert]
    · simp only [upsert, if_neg ha, List.map_cons]
      rw [ih]
      by_cases hk : k ∈ rest.map Prod.fst
      · simp [hk, Ne.symm ha]
      · simp [hk, Ne.symm ha]

theorem mem_keys_upsert {β : Type} (k k' : String) (f : Option β → β)
    (l : List (String × β)) :
    k' ∈ (upsert k f l).map Prod.fst ↔ k' ∈ l.map Prod.fst ∨ k' = k := by
  rw [keys_upsert]
  split_ifs with hk
  · constructor
    · exact fun h => Or.inl h
    · rintro (h | rfl)
      · exact h
      · exact hk
  · simp

theorem nodup_keys_upsert {β : Type} (k : String) (f : Option β → β)
    {l : List (String × β)} (h : (l.map Prod.fst).Nodup) :
    ((upsert k f l).map Prod.fst).Nodup := by
  rw [keys_upsert]
  split_ifs with hk
  · exact h
  · simp [List.nodup_append, h, hk]

theorem upsert_forall {β : Type} {P : String × β → Prop} {k : String} {f : Option β → β}
    {l : List (String × β)} (h : ∀ p ∈ l, P p) (h0 : P (k, f none))
    (hs : ∀ v, P (k, v) → P (k, f (some v))) : ∀ p ∈ upsert k f l, P p := by
  induction l with
  | nil =>
    intro p hp
    simp only [upsert, List.mem_singleton] at hp
    subst hp
    exact h0
  | cons q rest ih =>
    obtain ⟨a, v⟩ := q
    intro p hp
    simp only [upsert] at hp
    by_cases ha : a = k
    · rw [if_pos ha] at hp
      rcases List.mem_cons.mp hp with rfl | hp'
      · subst ha
        exact hs v (h _ (List.mem_cons_self _ _))
      · exact h _ (List.mem_cons_of_mem _ hp')
    · rw [if_neg ha] at hp
      rcases List.mem_cons.mp hp with rfl | hp'
      · exact h _ (List.mem_cons_self _ _)
      · exact ih (fun q hq => h q (List.mem_cons_of_mem _ hq)) _ hp'

theorem lookupA_isSome_iff {β : Type} (k : String) (l : List (String × β)) :
    (lookupA k l).isSome ↔ k ∈ l.map Prod.fst := by
  induction l with
  | nil => simp [lookupA]
  | cons p rest ih =>
    obtain ⟨a, v⟩ := p
    by_cases ha : a = k
    · subst ha
      simp [lookupA]
    · simp [lookupA, ha, ih, Ne.symm ha]

theorem lookupA_eq_none_iff {β : Type} (k : String) (l : List (String × β)) :
    lookupA k l = none ↔ k ∉ l.map Prod.fst := by
  rw [← lookupA_isSome_iff, Option.isSome_iff_exists]
  cases lookupA k l <;> simp

/-! ## Commit-index and detected-entries lemmas -/

theorem commitIndex_value {commits : List GitHubCommit} {k : String} {v : GitHubCommit}
    (h : lookupA k (commitIndex commits) = some v) : v.sha = k ∧ v ∈ commits := by
  have hInv := foldl_preserve
    (fun m => ∀ p ∈ m, (Prod.snd p).sha = Prod.fst p ∧ Prod.snd p ∈ commits)
    indexStep commits [] (by simp)
    (fun s c hc hs => by
      show ∀ p ∈ upsert c.sha (fun _ => c) s,
        (Prod.snd p).sha = Prod.fst p ∧ Prod.snd p ∈ commits
      exact upsert_forall hs ⟨rfl, hc⟩ fun _w _hw => ⟨rfl, hc⟩)
  exact hInv _ (lookupA_mem h)

theorem sha_mem_commitIndex {commits : List GitHubCommit} {c : GitHubCommit}
    (hc : c ∈ commits) : (lookupA c.sha (commitIndex commits)).isSome := by
  rw [lookupA_isSome_iff]
  obtain ⟨l1, l2, rfl⟩ := List.append_of_mem hc
  unfold commitIndex
  rw [List.foldl_append]
  simp only [List.foldl_cons]
  exact foldl_preserve (fun m => c.sha ∈ m.map Prod.fst) indexStep l2 _
    ((mem_keys_upsert _ _ _ _).mpr (Or.inr rfl))
    (fun s a _ha hk => (mem_keys_upsert _ _ _ _).mpr (Or.inl hk))

theorem detectedEntries_entry {commits : List GitHubCommit} {c : GitHubCommit}
    {d : Detection} (hc : c ∈ commits) (hd : detectAITool c.message = some d) :
    ({ commit := c, aiTool := d.aiTool, claudeModel := d.claudeModel } : AICommitEntry)
      ∈ detectedEntries commits :=
  List.mem_filterMap.mpr ⟨c, hc, by rw [hd]; rfl⟩

theorem mem_detectedEntries {commits : List GitHubCommit} {e : AICommitEntry}
    (he : e ∈ detectedEntries commits) :
    e.commit ∈ commits ∧
      detectAITool e.commit.message =
        some { aiTool := e.aiTool, claudeModel := e.claudeModel } := by
  obtain ⟨c, hc, hmap⟩ := List.mem_filterMap.mp he
  cases hdet : detectAITool c.message with
  | none => rw [hdet] at hmap; simp at hmap
  | some d =>
    rw [hdet] at hmap
    simp only [Option.map_some'] at hmap
    obtain rfl := Option.some.inj hmap
    exact ⟨hc, hdet⟩

/-! ## The PR-label reconciliation loop -/

/-- The entries the PR-label reconciliation loop appends to
`aiCommitsWithTool`, computed directly from the remaining PR results and
the current `detectedSHAs` set; `foldl_applyPRStep_entries` bridges this
to the source's fold. -/
def prAdded (idx : List (String × GitHubCommit)) :
    List PRLabelResult → List String → List AICommitEntry
  | [], _ => []
  | pr :: rest, shas =>
    if shas.contains pr.sha then prAdded idx rest shas
    else
      match lookupA pr.sha idx with
      | none => prAdded idx rest shas
      | some c =>
        { commit := c, aiTool := pr.aiTool, claudeModel := none } ::
          prAdded idx rest (shas ++ [pr.sha])

theorem foldl_applyPRStep_entries (idx : List (String × GitHubCommit)) :
    ∀ (prs : List PRLabelResult) (st : EnrichState),
      (prs.foldl (applyPRStep idx) st).entries = st.entries ++ prAdded idx prs st.shas := by
  intro prs
  induction prs with
  | nil => intro st; simp [prAdded]
  | cons pr rest ih =>
    intro st
    simp only [List.foldl_cons]
    by_cases hmem : pr.sha ∈ st.shas
    · have hstep : applyPRStep idx st pr = st := by simp [applyPRStep, hmem]
      rw [hstep, ih st]
      simp [prAdded, hmem]
    · cases hlook : lookupA pr.sha idx with
      | none =>
        have hstep : applyPRStep idx st pr = st := by simp [applyPRStep, hmem, hlook]
        rw [hstep, ih st]
        simp [prAdded, hmem, hlook]
      | some c =>
        have hstep : applyPRStep idx st pr =
            { entries := st.entries ++ [{ commit := c, aiTool := pr.aiTool, claudeModel := none }]
              shas := st.shas ++ [pr.sha] } := by
          simp [applyPRStep, hmem, hlook]
        rw [hstep, ih]
        simp [prAdded, hmem, hlook]

theorem aiEntries_eq (commits : List GitHubCommit) (prs : List PRLabelResult) :
    aiEntries commits prs = detectedEntries commits ++
      prAdded (commitIndex commits) prs ((detectedEntries commits).map fun e => e.commit.sha) :=
  foldl_applyPRStep_entries _ prs _

theorem aiEntries_nil (commits : List GitHubCommit) :
    aiEntries commits [] = detectedEntries commits := by
  rw [aiEntries_eq]
  simp [prAdded]

theorem prAdded_spec {idx : List (String × GitHubCommit)}
    (hidx : ∀ k v, lookupA k idx = some v → v.sha = k) :
    ∀ (prs : List PRLabelResult) (shas : List String),
      ∀ e ∈ prAdded idx prs shas,
        e.claudeModel = none ∧ lookupA e.commit.sha idx = some e.commit ∧
          e.commit.sha ∉ shas ∧ ∃ pr ∈ prs, pr.sha = e.commit.sha ∧ e.aiTool = pr.aiTool := by
  intro prs
  induction prs with
  | nil => simp [prAdded]
  | cons pr rest ih =>
    intro shas e he
    by_cases hmem : pr.sha ∈ shas
    · rw [show prAdded idx (pr :: rest) shas = prAdded idx rest shas from by
        simp [prAdded, hmem]] at he
      obtain ⟨h1, h2, h3, pr', hpr', h4⟩ := ih shas e he
      exact ⟨h1, h2, h3, pr', List.mem_cons_of_mem _ hpr', h4⟩
    · cases hlook : lookupA pr.sha idx with
      | none =>
        rw [show prAdded idx (pr :: rest) shas = prAdded idx rest shas from by
          simp [prAdded, hmem, hlook]] at he
        obtain ⟨h1, h2, h3, pr', hpr', h4⟩ := ih shas e he
        exact ⟨h1, h2, h3, pr', List.mem_cons_of_mem _ hpr', h4⟩
      | some c =>
        rw [show prAdded idx (pr :: rest) shas =
            { commit := c, aiTool := pr.aiTool, claudeModel := none } ::
              prAdded idx rest (shas ++ [pr.sha]) from by
          simp [prAdded, hmem, hlook]] at he
        rcases List.mem_cons.mp he with rfl | he'
        · have hsha : c.sha = pr.sha := hidx _ _ hlook
          refine ⟨rfl, ?_, ?_, pr, List.mem_cons_self _ _, hsha.symm, rfl⟩
          · show lookupA c.sha idx = some c
            rw [hsha]
            exact hlook
          · show c.sha ∉ shas
            rw [hsha]
            exact hmem
        · obtain ⟨h1, h2, h3, pr', hpr', h4⟩ := ih (shas ++ [pr.sha]) e he'
          refine ⟨h1, h2, fun hin => h3 (List.mem_append_left _ hin),
            pr', List.mem_cons_of_mem _ hpr', h4⟩

theorem prAdded_sha_nodup {idx : List (String × GitHubCommit)}
    (hidx : ∀ k v, lookupA k idx = some v → v.sha = k) :
    ∀ (prs : List PRLabelResult) (shas : List String),
      ((prAdded idx prs shas).map fun e => e.commit.sha).Nodup := by
  intro prs
  induction prs with
  | nil => simp [prAdded]
  | cons pr rest ih =>
    intro shas
    by_cases hmem : pr.sha ∈ shas
    · rw [show prAdded idx (pr :: rest) shas = prAdded idx rest shas from by
        simp [prAdded, hmem]]
      exact ih shas
    · cases hlook : lookupA pr.sha idx with
      | none =>
        rw [show prAdded idx (pr :: rest) shas = prAdded idx rest shas from by
          simp [prAdded, hmem, hlook]]
        exact ih shas
      | some c =>
        rw [show prAdded idx (pr :: rest) shas =
            { commit := c, aiTool := pr.aiTool, claudeModel := none } ::
              prAdded idx rest (shas ++ [pr.sha]) from by
          simp [prAdded, hmem, hlook]]
        simp only [List.map_cons, List.nodup_cons]
        constructor
        · intro hin
          obtain ⟨e, he, hesha⟩ := List.mem_map.mp hin
          have := (prAdded_spec hidx rest (shas ++ [pr.sha]) e he).2.2.1
          apply this
          rw [hesha]
          show c.sha ∈ shas ++ [pr.sha]
          rw [hidx _ _ hlook]
          simp
        · exact ih (shas ++ [pr.sha])

theorem prAdded_first {idx : List (String × GitHubCommit)}
    (hidx : ∀ k v, lookupA k idx = some v → v.sha = k) :
    ∀ (prs : List PRLabelResult) (shas : List String) (s : String) (pr0 : PRLabelResult),
      prs.find? (fun p => p.sha == s) = some pr0 →
      ∀ e ∈ prAdded idx prs shas, e.commit.sha = s → e.aiTool = pr0.aiTool := by
  intro prs
  induction prs with
  | nil => simp
  | cons pr rest ih =>
    intro shas s pr0 hfind e he hes
    cases hps : (pr.sha == s) with
    | true =>
      have hsha : pr.sha = s := by
        simpa using hps
      rw [List.find?_cons, hps] at hfind
      obtain rfl := Option.some.inj hfind
      by_cases hmem : pr.sha ∈ shas
      · rw [show prAdded idx (pr :: rest) shas = prAdded idx rest shas from by
          simp [prAdded, hmem]] at he
        have h3 := (prAdded_spec hidx rest shas e he).2.2.1
        exact absurd (by rw [hes, ← hsha]; exact hmem) h3
      · cases hlook : lookupA pr.sha idx with
        | none =>
          rw [show prAdded idx (pr :: rest) shas = prAdded idx rest shas from by
            simp [prAdded, hmem, hlook]] at he
          have h2 := (prAdded_spec hidx rest shas e he).2.1
          rw [hes, ← hsha, hlook] at h2
          exact absurd h2 (by simp)
        | some c =>
          rw [show prAdded idx (pr :: rest) shas =
              { commit := c, aiTool := pr.aiTool, claudeModel := none } ::
                prAdded idx rest (shas ++ [pr.sha]) from by
            simp [prAdded, hmem, hlook]] at he
          rcases List.mem_cons.mp he with rfl | he'
          · rfl
          · have h3 := (prAdded_spec hidx rest (shas ++ [pr.sha]) e he').2.2.1
            exact absurd (by rw [hes, ← hsha]; simp) h3
    | false =>
      have hne : pr.sha ≠ s := by
        intro hcontra
        rw [hcontra] at hps
        simp at hps
      rw [List.find?_cons, hps] at hfind
      by_cases hmem : pr.sha ∈ shas
      · rw [show prAdded idx (pr :: rest) shas = prAdded idx rest shas from by
          simp [prAdded, hmem]] at he
        exact ih shas s pr0 hfind e he hes
      · cases hlook : lookupA pr.sha idx with
        | none =>
          rw [show prAdded idx (pr :: rest) shas = prAdded idx rest shas from by
            simp [prAdded, hmem, hlook]] at he
          exact ih shas s pr0 hfind e he hes
        | some c =>
          rw [show prAdded idx (pr :: rest) shas =
              { commit := c, aiTool := pr.aiTool, claudeModel := none } ::
                prAdded idx rest (shas ++ [pr.sha]) from by
            simp [prAdded, hmem, hlook]] at he
          rcases List.mem_cons.mp he with rfl | he'
          · exfalso
            apply hne
            rw [← hes]
            exact (hidx _ _ hlook).symm
          · exact ih (shas ++ [pr.sha]) s pr0 hfind e he' hes

theorem prAdded_exists {idx : List (String × GitHubCommit)}
    (hidx : ∀ k v, lookupA k idx = some v → v.sha = k) :
    ∀ (prs : List PRLabelResult) (shas : List String) (s : String) (c : GitHubCommit)
      (pr0 : PRLabelResult),
      s ∉ shas → lookupA s idx = some c →
      prs.find? (fun p => p.sha == s) = some pr0 →
      ∃ e ∈ prAdded idx prs shas, e.commit.sha = s ∧ e.aiTool = pr0.aiTool := by
  intro prs
  induction prs with
  | nil => simp
  | cons pr rest ih =>
    intro shas s c pr0 hnotin hlookS hfind
    cases hps : (pr.sha == s) with
    | true =>
      have hsha : pr.sha = s := by simpa using hps
      rw [List.find?_cons, hps] at hfind
      obtain rfl := Option.some.inj hfind
      have hmem : pr.sha ∉ shas := by rw [hsha]; exact hnotin
      have hlook : lookupA pr.sha idx = some c := by rw [hsha]; exact hlookS
      rw [show prAdded idx (pr :: rest) shas =
          { commit := c, aiTool := pr.aiTool, claudeModel := none } ::
            prAdded idx rest (shas ++ [pr.sha]) from by
        simp [prAdded, hmem, hlook]]
      refine ⟨_, List.mem_cons_self _ _, ?_, rfl⟩
      show c.sha = s
      rw [hidx _ _ hlook]
      exact hsha
    | false =>
      have hne : pr.sha ≠ s := by
        intro hcontra
        rw [hcontra] at hps
        simp at hps
      rw [List.find?_cons, hps] at hfind
      by_cases hmem : pr.sha ∈ shas
      · rw [show prAdded idx (pr :: rest) shas = prAdded idx rest shas from by
          simp [prAdded, hmem]]
        exact ih shas s c pr0 hnotin hlookS hfind
      · cases hlook : lookupA pr.sha idx with
        | none =>
          rw [show prAdded idx (pr :: rest) shas = prAdded idx rest shas from by
            simp [prAdded, hmem, hlook]]
          exact ih shas s c pr0 hnotin hlookS hfind
        | some c' =>
          rw [show prAdded idx (pr :: rest) shas =
              { commit := c', aiTool := pr.aiTool, claudeModel := none } ::
                prAdded idx rest (shas ++ [pr.sha]) from by
            simp [prAdded, hmem, hlook]]
          have hnotin' : s ∉ shas ++ [pr.sha] := by
            intro hin
            rcases List.mem_append.mp hin with h | h
            · exact hnotin h
            · exact hne (List.mem_singleton.mp h).symm
          obtain ⟨e, he, h1, h2⟩ := ih (shas ++ [pr.sha]) s c pr0 hnotin' hlookS hfind
          exact ⟨e, List.mem_cons_of_mem _ he, h1, h2⟩

/-! ## Breakdown counter lemmas -/

theorem sumTool_incTool (t : AITool) (b : AIToolBreakdown) :
    sumTool (incTool t b) = sumTool b + 1 := by
  cases t <;> simp [incTool, sumTool] <;> omega

theorem sumTool_empty : sumTool emptyToolBreakdown = 0 := rfl

theorem sumModel_incModel (v : ClaudeModel) (b : ClaudeModelBreakdown) :
    sumModel (incModel v b) = sumModel b + 1 := by
  cases v <;> simp [incModel, sumModel] <;> omega

theorem sumModel_empty : sumModel emptyModelBreakdown = 0 := rfl

/-- A classification produced by `detectAITool` carries a model exactly for
the two Claude tools. -/
theorem detect_modelOk {m : String} {d : Detection} (h : detectAITool m = some d) :
    d.claudeModel.isSome ↔ (d.aiTool = .claudeCoauthor ∨ d.aiTool = .claudeGenerated) := by
  simp only [detectAITool] at h
  split_ifs at h <;> (obtain rfl := Option.some.inj h; simp)

/-- Conservation step for the per-user model breakdown. -/
theorem modelConservation_step (t : AITool) (cm : Option ClaudeModel)
    (tb : AIToolBreakdown) (cmb : ClaudeModelBreakdown)
    (hok : cm.isSome ↔ (t = .claudeCoauthor ∨ t = .claudeGenerated))
    (hq : sumModel cmb = tb.claudeCoauthor + tb.claudeGenerated) :
    sumModel (incModelOpt cm cmb) =
      (incTool t tb).claudeCoauthor + (incTool t tb).claudeGenerated := by
  cases cm with
  | some v =>
    rcases hok.mp (by simp) with rfl | rfl <;>
      simp [incModelOpt, incTool, sumModel_incModel, hq] <;> omega
  | none =>
    have ht : t ≠ .claudeCoauthor ∧ t ≠ .claudeGenerated := by
      constructor <;> intro hcontra <;> subst hcontra <;>
        simpa using hok.mpr (by simp)
    cases t <;> simp_all [incModelOpt, incTool]

/-! ## `userTotalCommits` characterization -/

theorem totals_lookup (u : String) :
    ∀ (l : List GitHubCommit) (m : List (String × Nat)),
      (lookupA u (l.foldl totalsStep m)).getD 0 =
        (lookupA u m).getD 0 + l.countP (fun c => loginOf c == some u) := by
  intro l
  induction l with
  | nil => simp
  | cons c rest ih =>
    intro m
    simp only [List.foldl_cons, List.countP_cons]
    cases hlog : loginOf c with
    | none =>
      rw [show totalsStep m c = m from by simp [totalsStep, hlog], ih]
      simp [hlog]
    | some u' =>
      rw [show totalsStep m c = upsert u' (fun o => o.getD 0 + 1) m from by
        simp [totalsStep, hlog]]
      by_cases hu : u' = u
      · subst hu
        rw [ih, lookupA_upsert_self]
        simp [hlog]
        omega
      · rw [ih, lookupA_upsert_ne (Ne.symm hu)]
        simp [hlog, hu]

theorem totals_keys (u : String) :
    ∀ (l : List GitHubCommit) (m : List (String × Nat)),
      (u ∈ (l.foldl totalsStep m).map Prod.fst ↔
        u ∈ m.map Prod.fst ∨ ∃ c ∈ l, loginOf c = some u) := by
  intro l
  induction l with
  | nil => simp
  | cons c rest ih =>
    intro m
    simp only [List.foldl_cons]
    cases hlog : loginOf c with
    | none =>
      rw [show totalsStep m c = m from by simp [totalsStep, hlog], ih]
      simp [hlog]
    | some u' =>
      rw [show totalsStep m c = upsert u' (fun o => o.getD 0 + 1) m from by
        simp [totalsStep, hlog]]
      rw [ih, mem_keys_upsert]
      simp only [List.mem_cons]
      constructor
      · rintro ((h | rfl) | ⟨c', hc', h'⟩)
        · exact Or.inl h
        · exact Or.inr ⟨c, Or.inl rfl, hlog⟩
        · exact Or.inr ⟨c', Or.inr hc', h'⟩
      · rintro (h | ⟨c', hc' | hc', h'⟩)
        · exact Or.inl (Or.inl h)
        · subst hc'
          rw [hlog] at h'
          exact Or.inl (Or.inr (Option.some.inj h').symm)
        · exact Or.inr ⟨c', hc', h'⟩

theorem totals_keys_nodup (commits : List GitHubCommit) :
    ((userTotalCommits commits).map Prod.fst).Nodup := by
  refine foldl_preserve (fun m => (m.map Prod.fst).Nodup) totalsStep commits [] (by simp)
    (fun s c _hc h => ?_)
  cases hlog : loginOf c with
  | none => rw [show totalsStep s c = s from by simp [totalsStep, hlog]]; exact h
  | some u' =>
    rw [show totalsStep s c = upsert u' (fun o => o.getD 0 + 1) s from by
      simp [totalsStep, hlog]]
    exact nodup_keys_upsert _ _ h

theorem sum_snd_upsert_inc (k : String) (m : List (String × Nat)) :
    ((upsert k (fun o => o.getD 0 + 1) m).map Prod.snd).sum = (m.map Prod.snd).sum + 1 := by
  induction m with
  | nil => simp [upsert]
  | cons p rest ih =>
    obtain ⟨a, v⟩ := p
    by_cases ha : a = k
    · simp only [upsert, if_pos ha, List.map_cons, List.sum_cons]
      simp
      omega
    · simp only [upsert, if_neg ha, List.map_cons, List.sum_cons, ih]
      omega

theorem totals_sum :
    ∀ (l : List GitHubCommit) (m : List (String × Nat)),
      ((l.foldl totalsStep m).map Prod.snd).sum =
        (m.map Prod.snd).sum + l.countP (fun c => (loginOf c).isSome) := by
  intro l
  induction l with
  | nil => simp
  | cons c rest ih =>
    intro m
    simp only [List.foldl_cons, List.countP_cons]
    cases hlog : loginOf c with
    | none =>
      rw [show totalsStep m c = m from by simp [totalsStep, hlog], ih]
      simp [hlog]
    | some u' =>
      rw [show totalsStep m c = upsert u' (fun o => o.getD 0 + 1) m from by
        simp [totalsStep, hlog], ih, sum_snd_upsert_inc]
      simp [hlog]
      omega

/-! ## `userCommits` characterization -/

/-- The AI commit count the leaderboard reads for a login. -/
def countOfUser (u : String) (m : List (String × UserAIData)) : Nat :=
  match lookupA u m with
  | some d => d.count
  | none => 0

theorem userCommitsUpdate_count (repositories : List Repository) (e : AICommitEntry)
    (o : Option UserAIData) :
    (userCommitsUpdate repositories e o).count =
      (match o with | some d => d.count | none => 0) + 1 := by
  cases o <;> simp [userCommitsUpdate]

theorem ucm_count (repositories : List Repository) (u : String) :
    ∀ (entries : List AICommitEntry) (m : List (String × UserAIData)),
      countOfUser u (entries.foldl (userCommitsStep repositories) m) =
        countOfUser u m + entries.countP (fun e => loginOf e.commit == some u) := by
  intro entries
  induction entries with
  | nil => simp
  | cons e rest ih =>
    intro m
    simp only [List.foldl_cons, List.countP_cons]
    cases hlog : loginOf e.commit with
    | none =>
      rw [show userCommitsStep repositories m e = m from by simp [userCommitsStep, hlog], ih]
      simp [hlog]
    | some u' =>
      rw [show userCommitsStep repositories m e =
          upsert u' (userCommitsUpdate repositories e) m from by
        simp [userCommitsStep, hlog]]
      rw [ih]
      by_cases hu : u' = u
      · subst hu
        unfold countOfUser
        rw [lookupA_upsert_self]
        cases hl : lookupA u' m <;> simp [userCommitsUpdate_count, hlog] <;> omega
      · unfold countOfUser
        rw [lookupA_upsert_ne (Ne.symm hu)]
        simp [hlog, hu]

theorem ucm_keys (repositories : List Repository) (u : String) :
    ∀ (entries : List AICommitEntry) (m : List (String × UserAIData)),
      (u ∈ (entries.foldl (userCommitsStep repositories) m).map Prod.fst ↔
        u ∈ m.map Prod.fst ∨ ∃ e ∈ entries, loginOf e.commit = some u) := by
  intro entries
  induction entries with
  | nil => simp
  | cons e rest ih =>
    intro m
    simp only [List.foldl_cons]
    cases hlog : loginOf e.commit with
    | none =>
      rw [show userCommitsStep repositories m e = m from by simp [userCommitsStep, hlog], ih]
      simp [hlog]
    | some u' =>
      rw [show userCommitsStep repositories m e =
          upsert u' (userCommitsUpdate repositories e) m from by
        simp [userCommitsStep, hlog]]
      rw [ih, mem_keys_upsert]
      simp only [List.mem_cons]
      constructor
      · rintro ((h | rfl) | ⟨e', he', h'⟩)
        · exact Or.inl h
        · exact Or.inr ⟨e, Or.inl rfl, hlog⟩
        · exact Or.inr ⟨e', Or.inr he', h'⟩
      · rintro (h | ⟨e', he' | he', h'⟩)
        · exact Or.inl (Or.inl h)
        · subst he'
          rw [hlog] at h'
          exact Or.inl (Or.inr (Option.some.inj h').symm)
        · exact Or.inr ⟨e', he', h'⟩

theorem ucm_count_conservation (repositories : List Repository)
    (entries : List AICommitEntry) :
    ∀ p ∈ userCommitsMap repositories entries,
      (Prod.snd p).count = sumTool (Prod.snd p).aiToolBreakdown := by
  refine foldl_preserve (fun m => ∀ p ∈ m, (Prod.snd p).count = sumTool (Prod.snd p).aiToolBreakdown)
    (userCommitsStep repositories) entries [] (by simp) (fun s e _he h => ?_)
  cases hlog : loginOf e.commit with
  | none =>
    rw [show userCommitsStep repositories s e = s from by simp [userCommitsStep, hlog]]
    exact h
  | some u' =>
    rw [show userCommitsStep repositories s e =
        upsert u' (userCommitsUpdate repositories e) s from by
      simp [userCommitsStep, hlog]]
    refine upsert_forall h ?_ (fun v hv => ?_)
    · simp [userCommitsUpdate, sumTool_incTool, sumTool_empty]
    · simpa [userCommitsUpdate, sumTool_incTool] using hv

theorem ucm_model_conservation (repositories : List Repository)
    (entries : List AICommitEntry)
    (hok : ∀ e ∈ entries,
      (e.claudeModel.isSome ↔ (e.aiTool = .claudeCoauthor ∨ e.aiTool = .claudeGenerated))) :
    ∀ p ∈ userCommitsMap repositories entries,
      sumModel (Prod.snd p).claudeModelBreakdown =
        (Prod.snd p).aiToolBreakdown.claudeCoauthor +
          (Prod.snd p).aiToolBreakdown.claudeGenerated := by
  refine foldl_preserve
    (fun m => ∀ p ∈ m, sumModel (Prod.snd p).claudeModelBreakdown =
      (Prod.snd p).aiToolBreakdown.claudeCoauthor +
        (Prod.snd p).aiToolBreakdown.claudeGenerated)
    (userCommitsStep repositories) entries [] (by simp) (fun s e he h => ?_)
  cases hlog : loginOf e.commit with
  | none =>
    rw [show userCommitsStep repositories s e = s from by simp [userCommitsStep, hlog]]
    exact h
  | some u' =>
    rw [show userCommitsStep repositories s e =
        upsert u' (userCommitsUpdate repositories e) s from by
      simp [userCommitsStep, hlog]]
    refine upsert_forall h ?_ (fun v hv => ?_)
    · exact modelConservation_step e.aiTool e.claudeModel _ _ (hok e he)
        (by simp [sumModel, emptyModelBreakdown, emptyToolBreakdown])
    · exact modelConservation_step e.aiTool e.claudeModel _ _ (hok e he) hv

/-! ## Counting lemmas -/

theorem countP_partition {A : Type} (p : A → Bool) (l : List A) :
    l.length = l.countP p + (l.filter fun a => !(p a)).length := by
  induction l with
  | nil => simp
  | cons a rest ih =>
    by_cases hp : p a <;>
      simp [List.countP_cons, List.filter_cons, hp, ih] <;> omega

theorem countP_filter_ne {A : Type} (key : A → Option String) {u u0 : String}
    (hne : u ≠ u0) (l : List A) :
    (l.filter fun a => !(key a == some u0)).countP (fun a => key a == some u) =
      l.countP (fun a => key a == some u) := by
  induction l with
  | nil => rfl
  | cons a rest ih =>
    by_cases h0 : key a = some u0
    · have hu : (key a == some u) = false := by
        rw [h0, beq_eq_false_iff_ne]
        exact fun hcontra => hne (Option.some.inj hcontra).symm
      have hne' : ¬u0 = u := fun hcontra => hne hcontra.symm
      simp [List.filter_cons, List.countP_cons, h0, hu, ih, hne']
    · simp [List.filter_cons, List.countP_cons, h0, ih]

theorem sum_countP_eq_length {A : Type} (key : A → Option String) :
    ∀ (ks : List String) (l : List A), ks.Nodup →
      (∀ a ∈ l, ∃ u, key a = some u ∧ u ∈ ks) →
      (ks.map fun u => l.countP (fun a => key a == some u)).sum = l.length := by
  intro ks
  induction ks with
  | nil =>
    intro l _ hall
    cases l with
    | nil => simp
    | cons a rest =>
      obtain ⟨u, _, hu⟩ := hall a (by simp)
      simp at hu
  | cons u0 ks ih =>
    intro l hnd hall
    obtain ⟨hu0, hnd'⟩ := List.nodup_cons.mp hnd
    simp only [List.map_cons, List.sum_cons]
    have hmapeq : (ks.map fun u => l.countP (fun a => key a == some u)) =
        ks.map fun u =>
          (l.filter fun a => !(key a == some u0)).countP (fun a => key a == some u) := by
      apply List.map_congr_left
      intro u hu
      exact (countP_filter_ne key (fun hcontra => hu0 (by rw [← hcontra]; exact hu)) l).symm
    rw [hmapeq, ih (l.filter fun a => !(key a == some u0)) hnd' ?hall]
    · exact (countP_partition (fun a => key a == some u0) l).symm
    case hall =>
      intro a ha
      obtain ⟨hal, hane⟩ := List.mem_filter.mp ha
      obtain ⟨u, hku, hu⟩ := hall a hal
      refine ⟨u, hku, ?_⟩
      rcases List.mem_cons.mp hu with rfl | h
      · exfalso
        simp [hku] at hane
      · exact h

/-! ## Rank assignment lemmas -/

theorem assignRanks_length : ∀ (n : Nat) (l : List LeaderboardEntry),
    (assignRanks n l).length = l.length
  | _, [] => rfl
  | n, _ :: rest => by simp [assignRanks, assignRanks_length (n + 1) rest]

theorem mem_assignRanks {e : LeaderboardEntry} :
    ∀ {n : Nat} {l : List LeaderboardEntry}, e ∈ assignRanks n l →
      ∃ e0 ∈ l, e = { e0 with rank := e.rank } := by
  intro n l
  induction l generalizing n with
  | nil => simp [assignRanks]
  | cons e0 rest ih =>
    intro he
    rcases List.mem_cons.mp he with rfl | he'
    · exact ⟨e0, by simp, by simp⟩
    · obtain ⟨e1, he1, heq⟩ := ih he'
      exact ⟨e1, List.mem_cons_of_mem _ he1, heq⟩

theorem assignRanks_get : ∀ (n : Nat) (l : List LeaderboardEntry) (i : Nat)
    (h : i < (assignRanks n l).length) (h' : i < l.length),
    (assignRanks n l).get ⟨i, h⟩ = { l.get ⟨i, h'⟩ with rank := n + i }
  | n, e :: rest, 0, _, _ => by simp [assignRanks]
  | n, e :: rest, i + 1, h, h' => by
    simp only [assignRanks, List.get_cons_succ]
    rw [assignRanks_get (n + 1) rest i _ (by simpa using h')]
    simp
    omega

theorem assignRanks_map {γ : Type} (f : LeaderboardEntry → γ)
    (hf : ∀ e r, f { e with rank := r } = f e) :
    ∀ (n : Nat) (l : List LeaderboardEntry), (assignRanks n l).map f = l.map f
  | _, [] => rfl
  | n, e :: rest => by
    simp only [assignRanks, List.map_cons, hf, assignRanks_map f hf (n + 1) rest]

theorem assignRanks_pairwise {R : LeaderboardEntry → LeaderboardEntry → Prop}
    (hR : ∀ a b i j, R a b → R { a with rank := i } { b with rank := j }) :
    ∀ {n : Nat} {l : List LeaderboardEntry}, l.Pairwise R → (assignRanks n l).Pairwise R := by
  intro n l
  induction l generalizing n with
  | nil => intro; simp [assignRanks]
  | cons e rest ih =>
    intro hp
    obtain ⟨hhead, htail⟩ := List.pairwise_cons.mp hp
    refine List.pairwise_cons.mpr ⟨?_, ih htail⟩
    intro b hb
    obtain ⟨b0, hb0, heq⟩ := mem_assignRanks hb
    rw [heq]
    exact hR _ _ _ _ (hhead b0 hb0)

/-! ## Leaderboard construction lemmas -/

theorem entriesBase_map_total (repositories : List Repository) (commits : List GitHubCommit)
    (prs : List PRLabelResult) :
    (entriesBase repositories commits prs).map (fun e => e.totalCommits) =
      (userTotalCommits commits).map Prod.snd := by
  unfold entriesBase
  rw [List.map_map]
  rfl

theorem entriesBase_map_commits (repositories : List Repository) (commits : List GitHubCommit)
    (prs : List PRLabelResult) :
    (entriesBase repositories commits prs).map (fun e => e.commits) =
      (userTotalCommits commits).map
        (fun p => countOfUser p.1 (userCommitsMap repositories (aiEntries commits prs))) := by
  unfold entriesBase
  rw [List.map_map]
  rfl

theorem entriesBase_map_username (repositories : List Repository) (commits : List GitHubCommit)
    (prs : List PRLabelResult) :
    (entriesBase repositories commits prs).map (fun e => e.username) =
      (userTotalCommits commits).map Prod.fst := by
  unfold entriesBase
  rw [List.map_map]
  rfl

theorem mem_buildLeaderboard {repositories : List Repository} {commits : List GitHubCommit}
    {prs : List PRLabelResult} {e : LeaderboardEntry}
    (he : e ∈ buildLeaderboard repositories commits prs) :
    ∃ e0 ∈ entriesBase repositories commits prs, e = { e0 with rank := e.rank } := by
  unfold buildLeaderboard at he
  obtain ⟨e0, he0, heq⟩ := mem_assignRanks he
  exact ⟨e0, (List.perm_insertionSort entryLe _).mem_iff.mp he0, heq⟩

theorem buildLeaderboard_map_sum (repositories : List Repository) (commits : List GitHubCommit)
    (prs : List PRLabelResult) (f : LeaderboardEntry → Nat)
    (hf : ∀ e r, f { e with rank := r } = f e) :
    ((buildLeaderboard repositories commits prs).map f).sum =
      ((entriesBase repositories commits prs).map f).sum := by
  unfold buildLeaderboard
  rw [assignRanks_map f hf]
  exact ((List.perm_insertionSort entryLe _).map f).sum_eq

theorem buildLeaderboard_length (repositories : List Repository) (commits : List GitHubCommit)
    (prs : List PRLabelResult) :
    (buildLeaderboard repositories commits prs).length =
      (userTotalCommits commits).length := by
  unfold buildLeaderboard
  rw [assignRanks_length, (List.perm_insertionSort entryLe _).length_eq]
  unfold entriesBase
  rw [List.length_map]

theorem buildLeaderboard_usernames_perm (repositories : List Repository)
    (commits : List GitHubCommit) (prs : List PRLabelResult) :
    ((buildLeaderboard repositories commits prs).map fun e => e.username).Perm
      ((userTotalCommits commits).map Prod.fst) := by
  unfold buildLeaderboard
  rw [assignRanks_map (fun e => e.username) (fun e r => rfl)]
  have h := (List.perm_insertionSort entryLe (entriesBase repositories commits prs)).map
    fun e => e.username
  rw [entriesBase_map_username] at h
  exact h

/-- Case analysis of one `fetchAILabeledPRs` item step: skip, mark-seen
without a result, or mark-seen and push one result keyed by the PR
identity. -/
theorem processPRItem_cases (lookup : Repository → Nat → Option PRData) (repo : Repository)
    (st : PRState) (item : PRItem) :
    processPRItem lookup repo st item = st ∨
    processPRItem lookup repo st item =
      { st with seen := prKeyOf repo item.number :: st.seen } ∨
    (prKeyOf repo item.number ∉ st.seen ∧
      ∃ res,
        (item.labels.find? fun l => (labelToTool l).isSome).bind labelToTool =
          some res.aiTool ∧
        processPRItem lookup repo st item =
          { seen := prKeyOf repo item.number :: st.seen
            results := st.results ++ [(prKeyOf repo item.number, res)] }) := by
  by_cases hseen : prKeyOf repo item.number ∈ st.seen
  · exact Or.inl (by simp [processPRItem, hseen])
  · cases hlook : lookup repo item.number with
    | none => exact Or.inr (Or.inl (by simp [processPRItem, hseen, hlook]))
    | some prData =>
      cases hsha : prData.mergeCommitSha with
      | none => exact Or.inr (Or.inl (by simp [processPRItem, hseen, hlook, hsha]))
      | some mergeSha =>
        cases hlab : (item.labels.find? fun l => (labelToTool l).isSome).bind labelToTool with
        | none => exact Or.inr (Or.inl (by simp [processPRItem, hseen, hlook, hsha, hlab]))
        | some tool =>
          refine Or.inr (Or.inr ⟨hseen,
            { sha := mergeSha
              username := jsOrS item.userLogin (jsOrS prData.userLogin "")
              aiTool := tool
              repo := repo.displayName
              date := jsOrS prData.mergedAt "" }, rfl, ?_⟩)
          simp [processPRItem, hseen, hlook, hsha, hlab]


/-! ## Claim C9 -/

/-- C9: when the repository list passed to `fetchCommitDataClient` is empty,
it returns the zeroed result (totalCommits 0, aiCommits 0, activeUsers 0,
empty leaderboard, zero breakdowns); the embedded function is total, so no
exception can occur. -/
theorem C9_empty_repositories (commits : List GitHubCommit) (prs : List PRLabelResult) :
    fetchCommitDataClient [] commits prs =
      { totalCommits := 0, aiCommits := 0, aiToolBreakdown := emptyToolBreakdown
        claudeModelBreakdown := emptyModelBreakdown, activeUsers := 0, leaderboard := [] } :=
  rfl

/-! ## Claim C3 -/

/-- C3: detection is first-match in priority order: any message matched by
the Claude co-author rule — in particular one also carrying a Copilot
co-author trailer — classifies as claude-coauthor and never copilot. -/
theorem C3_claude_beats_copilot (m : String)
    (h1 : claudeCoAuthorTest m = true) (_h2 : copilotCoAuthorTest m = true) :
    detectAITool m =
      some { aiTool := .claudeCoauthor, claudeModel := some (extractClaudeModel m) } ∧
    ∀ d, detectAITool m = some d → d.aiTool ≠ AITool.copilot := by
  have hdet : detectAITool m =
      some { aiTool := .claudeCoauthor, claudeModel := some (extractClaudeModel m) } := by
    simp [detectAITool, h1]
  refine ⟨hdet, fun d hd => ?_⟩
  rw [hdet] at hd
  obtain rfl := Option.some.inj hd
  simp

/-- A message carrying both a Claude and a Copilot co-author trailer. -/
def msgBothTrailers : String :=
  "Fix\n\nCo-authored-by: Claude <c@anthropic.com>\nCo-authored-by: Copilot <co@github.com>"

theorem C3_claude_beats_copilot_witness :
    claudeCoAuthorTest msgBothTrailers = true ∧ copilotCoAuthorTest msgBothTrailers = true ∧
    (detectAITool msgBothTrailers =
      some { aiTool := .claudeCoauthor
             claudeModel := some (extractClaudeModel msgBothTrailers) } ∧
     ∀ d, detectAITool msgBothTrailers = some d → d.aiTool ≠ AITool.copilot) :=
  ⟨by decide, by decide, C3_claude_beats_copilot msgBothTrailers (by decide) (by decide)⟩

/-! ## Claim C4 -/

/-- Modelled from the claim's wording for comparison with the code: the
free text standing between Claude and the email address of the matching
trailer — the regex capture `[^<]*` at the first matching position of the
lowercased message. -/
def claudeFreeTextAt (s : List Char) : Option (List Char) :=
  match afterLit "co-authored-by:".data s with
  | none => none
  | some r1 =>
    match afterLit "claude".data (dropWS r1) with
    | none => none
    | some r2 =>
      match toChar '<' r2 with
      | none => none
      | some r3 =>
        if seekLit '>' "@anthropic.com>".data r3 then
          some (r2.takeWhile fun c => c ≠ '<')
        else none

/-- The trailer free text at the first matching position, scanning the
whole (lowercased) message like the regex engine does. -/
def claudeTrailerFreeText : List Char → Option (List Char)
  | [] => claudeFreeTextAt []
  | c :: rest =>
    match claudeFreeTextAt (c :: rest) with
    | some ft => some ft
    | none => claudeTrailerFreeText rest

/-- Claim C4, formalised as an executable check: for a message classified
by the Claude co-author rule, the detected model is opus / sonnet / haiku
exactly when the trailer free text contains that model name, and unknown
exactly when it contains none of them. -/
def claimC4check (m : String) : Bool :=
  match detectAITool m, claudeTrailerFreeText (lowerChars m.data) with
  | some { aiTool := .claudeCoauthor, claudeModel := some v }, some ft =>
    ((v == .opus) == strIncludes "opus".data ft) &&
    ((v == .sonnet) == strIncludes "sonnet".data ft) &&
    ((v == .haiku) == strIncludes "haiku".data ft) &&
    ((v == .unknown) ==
      (!(strIncludes "opus".data ft || strIncludes "sonnet".data ft ||
         strIncludes "haiku".data ft)))
  | _, _ => true

/-- A Claude trailer whose free text names a model (`Opus`) without the
word `claude` directly preceding it. -/
def msgModelInTrailer : String := "Fix\n\nCo-authored-by: Claude 3 Opus <x@anthropic.com>"

/-- C4 counterexample: the trailer free text contains `opus`, yet the code
reports model `unknown`, because `extractClaudeModel` looks for the
substring `claude opus` in the whole message rather than `opus` in the
trailer free text. -/
theorem C4_counterexample :
    claimC4check msgModelInTrailer = false ∧
    detectAITool msgModelInTrailer =
      some { aiTool := .claudeCoauthor, claudeModel := some .unknown } ∧
    claudeTrailerFreeText (lowerChars msgModelInTrailer.data) = some " 3 opus ".data ∧
    strIncludes "opus".data " 3 opus ".data = true := by
  refine ⟨by decide, by decide, by decide, by decide⟩

/-- C4 amended: for every message matched by the Claude co-author rule the
detected model is opus / sonnet / haiku exactly when the whole message
contains `claude opus` / `claude sonnet` / `claude haiku` as a
case-insensitive substring (earlier names winning), and unknown when it
contains none. -/
theorem C4_model_from_whole_message (m : String) (h : claudeCoAuthorTest m = true) :
    detectAITool m =
      some { aiTool := .claudeCoauthor, claudeModel := some (extractClaudeModel m) } ∧
    (extractClaudeModel m = .opus ↔
      strIncludes "claude opus".data (lowerChars m.data) = true) ∧
    (extractClaudeModel m = .sonnet ↔
      (strIncludes "claude opus".data (lowerChars m.data) = false ∧
       strIncludes "claude sonnet".data (lowerChars m.data) = true)) ∧
    (extractClaudeModel m = .haiku ↔
      (strIncludes "claude opus".data (lowerChars m.data) = false ∧
       strIncludes "claude sonnet".data (lowerChars m.data) = false ∧
       strIncludes "claude haiku".data (lowerChars m.data) = true)) ∧
    (extractClaudeModel m = .unknown ↔
      (strIncludes "claude opus".data (lowerChars m.data) = false ∧
       strIncludes "claude sonnet".data (lowerChars m.data) = false ∧
       strIncludes "claude haiku".data (lowerChars m.data) = false)) := by
  refine ⟨by simp [detectAITool, h], ?_, ?_, ?_, ?_⟩ <;>
    (unfold extractClaudeModel; dsimp only; split_ifs <;> simp_all)

theorem C4_model_from_whole_message_witness :
    claudeCoAuthorTest msgModelInTrailer = true ∧
    detectAITool msgModelInTrailer =
      some { aiTool := .claudeCoauthor
             claudeModel := some (extractClaudeModel msgModelInTrailer) } :=
  ⟨by decide, (C4_model_from_whole_message msgModelInTrailer (by decide)).1⟩

/-! ## Claim C1 -/

/-- A commit with no AI signature in its message. -/
def plainCommit : GitHubCommit :=
  { sha := "s1", message := "hello", date := "d", repository := "R"
    author := some { login := "alice", avatar_url := "A" } }

/-- A PR-label result classifying that commit's SHA as claude-generated. -/
def claudePR : PRLabelResult :=
  { sha := "s1", username := "alice", aiTool := .claudeGenerated, repo := "R", date := "d" }

/-- C1 counterexample: a PR-label-derived claude-generated classification
carries no model, so the entry's model breakdown sums to 0 while
aiToolBreakdown claude-generated is 1 — the second conservation equation
fails. -/
theorem C1_counterexample :
    ∃ e ∈ (fetchCommitDataClient [{ owner := "o", name := "n", displayName := "R" }]
      [plainCommit] [claudePR]).leaderboard,
      sumModel e.claudeModelBreakdown ≠
        e.aiToolBreakdown.claudeCoauthor + e.aiToolBreakdown.claudeGenerated := by
  decide

/-- A classification of one of `u`'s commits that lands in a Claude tool
bucket but carries no model variant — the entries that make the model
breakdown fall short of the Claude tool buckets. -/
def modellessClaude (u : String) (a : AICommitEntry) : Bool :=
  loginOf a.commit == some u && a.claudeModel.isNone &&
    (a.aiTool == AITool.claudeCoauthor || a.aiTool == AITool.claudeGenerated)

/-- The model-breakdown sum the leaderboard reads for a login. -/
def smOfUser (u : String) (m : List (String × UserAIData)) : Nat :=
  match lookupA u m with
  | some d => sumModel d.claudeModelBreakdown
  | none => 0

/-- The two Claude tool buckets the leaderboard reads for a login. -/
def cgOfUser (u : String) (m : List (String × UserAIData)) : Nat :=
  match lookupA u m with
  | some d => d.aiToolBreakdown.claudeCoauthor + d.aiToolBreakdown.claudeGenerated
  | none => 0

theorem sumModel_incModelOpt (cm : Option ClaudeModel) (b : ClaudeModelBreakdown) :
    sumModel (incModelOpt cm b) = sumModel b + (if cm.isSome then 1 else 0) := by
  cases cm <;> simp [incModelOpt, sumModel_incModel]

/-- Per-user ledger: the Claude tool buckets exceed the model-breakdown sum
by exactly the number of processed model-less Claude-tool classifications,
provided every model-carrying classification is a Claude-tool one. -/
theorem ucm_deficit (repositories : List Repository) (u : String) :
    ∀ (entries : List AICommitEntry) (m : List (String × UserAIData)),
      (∀ a ∈ entries, a.claudeModel.isSome →
        (a.aiTool = .claudeCoauthor ∨ a.aiTool = .claudeGenerated)) →
      cgOfUser u (entries.foldl (userCommitsStep repositories) m) + smOfUser u m =
        smOfUser u (entries.foldl (userCommitsStep repositories) m) + cgOfUser u m +
          entries.countP (modellessClaude u) := by
  intro entries
  induction entries with
  | nil =>
    intro m _
    simp
    omega
  | cons a rest ih =>
    intro m hok
    have htail : ∀ b ∈ rest, b.claudeModel.isSome →
        (b.aiTool = .claudeCoauthor ∨ b.aiTool = .claudeGenerated) :=
      fun b hb => hok b (List.mem_cons_of_mem _ hb)
    simp only [List.foldl_cons, List.countP_cons]
    cases hlog : loginOf a.commit with
    | none =>
      rw [show userCommitsStep repositories m a = m from by simp [userCommitsStep, hlog]]
      have IH := ih m htail
      have hpred : modellessClaude u a = false := by simp [modellessClaude, hlog]
      simp [hpred]
      omega
    | some u' =>
      rw [show userCommitsStep repositories m a =
          upsert u' (userCommitsUpdate repositories a) m from by
        simp [userCommitsStep, hlog]]
      have IH := ih (upsert u' (userCommitsUpdate repositories a) m) htail
      by_cases hu : u' = u
      · subst hu
        have hsm' : smOfUser u' (upsert u' (userCommitsUpdate repositories a) m) =
            smOfUser u' m + (if a.claudeModel.isSome then 1 else 0) := by
          unfold smOfUser
          rw [lookupA_upsert_self]
          cases hl : lookupA u' m <;>
            simp [userCommitsUpdate, sumModel_incModelOpt, sumModel_empty]
        have hcg' : cgOfUser u' (upsert u' (userCommitsUpdate repositories a) m) =
            cgOfUser u' m +
              (if a.aiTool = .claudeCoauthor ∨ a.aiTool = .claudeGenerated
                then 1 else 0) := by
          unfold cgOfUser
          rw [lookupA_upsert_self]
          cases hl : lookupA u' m <;> cases hat : a.aiTool <;>
            simp [hat, userCommitsUpdate, incTool, emptyToolBreakdown] <;> omega
        rw [hsm', hcg'] at IH
        have hoka := hok a (List.mem_cons_self _ _)
        cases hcm : a.claudeModel with
        | some v =>
          rcases hoka (by rw [hcm]; rfl) with htool | htool <;>
            (simp [modellessClaude, hlog, hcm, htool] at IH ⊢; omega)
        | none =>
          by_cases h1 : a.aiTool = AITool.claudeCoauthor
          · simp [modellessClaude, hlog, hcm, h1] at IH ⊢
            omega
          · by_cases h2 : a.aiTool = AITool.claudeGenerated
            · simp [modellessClaude, hlog, hcm, h1, h2] at IH ⊢
              omega
            · simp [modellessClaude, hlog, hcm, h1, h2] at IH ⊢
              omega
      · have hsm' : smOfUser u (upsert u' (userCommitsUpdate repositories a) m) =
            smOfUser u m := by
          unfold smOfUser
          rw [lookupA_upsert_ne (Ne.symm hu)]
        have hcg' : cgOfUser u (upsert u' (userCommitsUpdate repositories a) m) =
            cgOfUser u m := by
          unfold cgOfUser
          rw [lookupA_upsert_ne (Ne.symm hu)]
        rw [hsm', hcg'] at IH
        have hpred : modellessClaude u a = false := by
          simp [modellessClaude, hlog, hu, Ne.symm hu]
        simp [hpred]
        omega

/-- No configured PR label maps to the claude-coauthor tool. -/
theorem labelToTool_ne_coauthor (l : String) :
    labelToTool l ≠ some AITool.claudeCoauthor := by
  unfold labelToTool
  split_ifs <;> simp

/-- One item step preserves: no result carries the claude-coauthor tool. -/
theorem processPRItem_no_coauthor (lookup : Repository → Nat → Option PRData)
    (repo : Repository) (st : PRState) (item : PRItem)
    (h : ∀ p ∈ st.results, (Prod.snd p).aiTool ≠ AITool.claudeCoauthor) :
    ∀ p ∈ (processPRItem lookup repo st item).results,
      (Prod.snd p).aiTool ≠ AITool.claudeCoauthor := by
  rcases processPRItem_cases lookup repo st item with heq | heq | ⟨_hseen, res, hlab, heq⟩ <;>
    rw [heq]
  · exact h
  · exact h
  · intro p hp
    rcases List.mem_append.mp hp with hp' | hp'
    · exact h p hp'
    · obtain rfl := List.mem_singleton.mp hp'
      obtain ⟨l', _hfind, htool'⟩ := Option.bind_eq_some.mp hlab
      intro hcontra
      rw [hcontra] at htool'
      exact labelToTool_ne_coauthor l' htool'

/-- `fetchAILabeledPRs` never produces a claude-coauthor classification. -/
theorem fetchAILabeledPRs_no_coauthor (search : Repository → String → List PRItem)
    (lookup : Repository → Nat → Option PRData) (repositories : List Repository) :
    ∀ r ∈ fetchAILabeledPRs search lookup repositories,
      r.aiTool ≠ AITool.claudeCoauthor := by
  intro r hr
  unfold fetchAILabeledPRs fetchAILabeledPRsKeyed at hr
  obtain ⟨⟨k, r'⟩, hkr, rfl⟩ := List.mem_map.mp hr
  have hInv := foldl_preserve
    (fun st : PRState => ∀ p ∈ st.results, (Prod.snd p).aiTool ≠ AITool.claudeCoauthor)
    (fun st repo =>
      AI_PR_LABELS.foldl
        (fun st label => (search repo label).foldl (processPRItem lookup repo) st) st)
    repositories { seen := [], results := [] } (by simp)
    (fun st repo _hr hst =>
      foldl_preserve _ _ AI_PR_LABELS st hst
        (fun st2 label _hl hst2 =>
          foldl_preserve _ _ (search repo label) st2 hst2
            (fun st3 item _hi hst3 => processPRItem_no_coauthor lookup repo st3 item hst3)))
  exact hInv _ hkr

/-- Every classification carrying a model variant lands in a Claude tool
bucket. -/
theorem aiEntries_model_claude (commits : List GitHubCommit) (prs : List PRLabelResult) :
    ∀ a ∈ aiEntries commits prs, a.claudeModel.isSome →
      (a.aiTool = .claudeCoauthor ∨ a.aiTool = .claudeGenerated) := by
  have hidx : ∀ k v, lookupA k (commitIndex commits) = some v → v.sha = k :=
    fun k v h => (commitIndex_value h).1
  intro a ha hsome
  rw [aiEntries_eq] at ha
  rcases List.mem_append.mp ha with hdet | hadd
  · exact (detect_modelOk (mem_detectedEntries hdet).2).mp hsome
  · have hcm := (prAdded_spec hidx prs _ a hadd).1
    rw [hcm] at hsome
    simp at hsome

/-- Every model-less Claude-tool classification is PR-label-derived: it
matches a PR-label result by SHA and tool. -/
theorem aiEntries_modelless_from_pr (commits : List GitHubCommit)
    (prs : List PRLabelResult) :
    ∀ a ∈ aiEntries commits prs, a.claudeModel = none →
      (a.aiTool = .claudeCoauthor ∨ a.aiTool = .claudeGenerated) →
      ∃ pr ∈ prs, pr.sha = a.commit.sha ∧ pr.aiTool = a.aiTool := by
  have hidx : ∀ k v, lookupA k (commitIndex commits) = some v → v.sha = k :=
    fun k v h => (commitIndex_value h).1
  intro a ha hnone htool
  rw [aiEntries_eq] at ha
  rcases List.mem_append.mp ha with hdet | hadd
  · have hsome := (detect_modelOk (mem_detectedEntries hdet).2).mpr htool
    rw [hnone] at hsome
    simp at hsome
  · obtain ⟨_, _, _, pr, hpr, hsha, heqt⟩ := prAdded_spec hidx prs _ a hadd
    exact ⟨pr, hpr, hsha, heqt.symm⟩

/-- C1 amended: the tool-breakdown conservation equation holds for every
entry unconditionally; the model breakdown falls short of
aiToolBreakdown claude-coauthor + claude-generated by exactly the number
of the entry's model-less Claude-tool classifications — and those are
precisely the PR-label-derived ones, which in turn can never be
claude-coauthor.  So the original second equation holds exactly when none
of the entry's commits was classified claude-generated via a PR label —
in particular whenever no PR-label result is consumed at all. -/
theorem C1_conservation (repositories : List Repository) (commits : List GitHubCommit)
    (prs : List PRLabelResult) (e : LeaderboardEntry)
    (he : e ∈ (fetchCommitDataClient repositories commits prs).leaderboard) :
    sumTool e.aiToolBreakdown = e.commits ∧
    sumModel e.claudeModelBreakdown +
        (aiEntries commits prs).countP (modellessClaude e.username) =
      e.aiToolBreakdown.claudeCoauthor + e.aiToolBreakdown.claudeGenerated ∧
    (∀ a ∈ aiEntries commits prs, a.claudeModel = none →
      (a.aiTool = .claudeCoauthor ∨ a.aiTool = .claudeGenerated) →
      ∃ pr ∈ prs, pr.sha = a.commit.sha ∧ pr.aiTool = a.aiTool) ∧
    (∀ (search : Repository → String → List PRItem)
        (lookup : Repository → Nat → Option PRData) (repos2 : List Repository),
      ∀ r ∈ fetchAILabeledPRs search lookup repos2, r.aiTool ≠ AITool.claudeCoauthor) := by
  unfold fetchCommitDataClient at he
  by_cases hrep : repositories = []
  · rw [if_pos hrep] at he
    simp at he
  · rw [if_neg hrep] at he
    have he' : e ∈ buildLeaderboard repositories commits prs := he
    obtain ⟨e0, he0, heq⟩ := mem_buildLeaderboard he'
    have hTB : e.aiToolBreakdown = e0.aiToolBreakdown := by rw [heq]
    have hCMB : e.claudeModelBreakdown = e0.claudeModelBreakdown := by rw [heq]
    have hC : e.commits = e0.commits := by rw [heq]
    have hU : e.username = e0.username := by rw [heq]
    rw [hTB, hCMB, hC, hU]
    refine ⟨?_, ?_, aiEntries_modelless_from_pr commits prs,
      fun search lookup repos2 => fetchAILabeledPRs_no_coauthor search lookup repos2⟩
    · unfold entriesBase at he0
      obtain ⟨⟨u, tot⟩, _hmem, rfl⟩ := List.mem_map.mp he0
      cases hA : lookupA u (userCommitsMap repositories (aiEntries commits prs)) with
      | none =>
        simp [hA, sumTool, emptyToolBreakdown]
      | some d =>
        have hP := ucm_count_conservation repositories (aiEntries commits prs) (u, d)
          (lookupA_mem hA)
        simp only [hA]
        exact hP.symm
    · unfold entriesBase at he0
      obtain ⟨⟨u, tot⟩, _hmem, rfl⟩ := List.mem_map.mp he0
      have hdef := ucm_deficit repositories u (aiEntries commits prs) []
        (aiEntries_model_claude commits prs)
      rw [show (aiEntries commits prs).foldl (userCommitsStep repositories) [] =
        userCommitsMap repositories (aiEntries commits prs) from rfl] at hdef
      have hsm0 : smOfUser u ([] : List (String × UserAIData)) = 0 := rfl
      have hcg0 : cgOfUser u ([] : List (String × UserAIData)) = 0 := rfl
      rw [hsm0, hcg0] at hdef
      cases hA : lookupA u (userCommitsMap repositories (aiEntries commits prs)) with
      | none =>
        have hsm : smOfUser u (userCommitsMap repositories (aiEntries commits prs)) = 0 := by
          unfold smOfUser
          rw [hA]
        have hcg : cgOfUser u (userCommitsMap repositories (aiEntries commits prs)) = 0 := by
          unfold cgOfUser
          rw [hA]
        rw [hsm, hcg] at hdef
        have harith : sumModel emptyModelBreakdown +
            (aiEntries commits prs).countP (modellessClaude u) =
            emptyToolBreakdown.claudeCoauthor + emptyToolBreakdown.claudeGenerated := by
          have h0 : (aiEntries commits prs).countP (modellessClaude u) = 0 := by omega
          simp [h0, sumModel_empty, emptyToolBreakdown]
        simp only [hA]
        exact harith
      | some d =>
        have hsm : smOfUser u (userCommitsMap repositories (aiEntries commits prs)) =
            sumModel d.claudeModelBreakdown := by
          unfold smOfUser
          rw [hA]
        have hcg : cgOfUser u (userCommitsMap repositories (aiEntries commits prs)) =
            d.aiToolBreakdown.claudeCoauthor + d.aiToolBreakdown.claudeGenerated := by
          unfold cgOfUser
          rw [hA]
        rw [hsm, hcg] at hdef
        have harith : sumModel d.claudeModelBreakdown +
            (aiEntries commits prs).countP (modellessClaude u) =
            d.aiToolBreakdown.claudeCoauthor + d.aiToolBreakdown.claudeGenerated := by
          omega
        simp only [hA]
        exact harith

/-- Concrete repository, commit and resulting leaderboard entry used to
witness the conservation theorem. -/
def witRepoC1 : Repository := { owner := "o", name := "n", displayName := "R" }

def witCommitC1 : GitHubCommit :=
  { sha := "s", message := "m\n\nCo-authored-by: Claude Opus <x@anthropic.com>"
    date := "d", repository := "R"
    author := some { login := "alice", avatar_url := "A" } }

def witEntryC1 : LeaderboardEntry :=
  { rank := 1, username := "alice", commits := 1, totalCommits := 1, aiPercentage := 100
    avatar := "A"
    commitDetails := [{ sha := "s", message := "m", date := "d"
                        url := "https://github.com/o/n/commit/s", repository := "R"
                        aiTool := .claudeCoauthor, claudeModel := some .opus }]
    allCommitDates := ["d"]
    aiToolBreakdown := { claudeCoauthor := 1, claudeGenerated := 0, copilot := 0
                         cursor := 0, codex := 0, gemini := 0 }
    claudeModelBreakdown := { opus := 1, sonnet := 0, haiku := 0, unknown := 0 } }

theorem C1_conservation_witness :
    witEntryC1 ∈ (fetchCommitDataClient [witRepoC1] [witCommitC1] []).leaderboard ∧
    (sumTool witEntryC1.aiToolBreakdown = witEntryC1.commits ∧
     sumModel witEntryC1.claudeModelBreakdown +
         (aiEntries [witCommitC1] []).countP (modellessClaude witEntryC1.username) =
       witEntryC1.aiToolBreakdown.claudeCoauthor +
         witEntryC1.aiToolBreakdown.claudeGenerated ∧
     (∀ a ∈ aiEntries [witCommitC1] [], a.claudeModel = none →
       (a.aiTool = .claudeCoauthor ∨ a.aiTool = .claudeGenerated) →
       ∃ pr ∈ ([] : List PRLabelResult), pr.sha = a.commit.sha ∧ pr.aiTool = a.aiTool) ∧
     (∀ (search : Repository → String → List PRItem)
         (lookup : Repository → Nat → Option PRData) (repos2 : List Repository),
       ∀ r ∈ fetchAILabeledPRs search lookup repos2,
         r.aiTool ≠ AITool.claudeCoauthor)) :=
  ⟨by decide, C1_conservation [witRepoC1] [witCommitC1] [] witEntryC1 (by decide)⟩

/-! ## Claim C10 -/

/-- C10: `activeUsers` equals the number of leaderboard entries, which is
the number of distinct non-null author logins among the fetched commits
(not the number of users with AI commits). -/
theorem C10_activeUsers (repositories : List Repository) (commits : List GitHubCommit)
    (prs : List PRLabelResult) (hrep : repositories ≠ []) :
    (fetchCommitDataClient repositories commits prs).activeUsers =
      (fetchCommitDataClient repositories commits prs).leaderboard.length ∧
    (fetchCommitDataClient repositories commits prs).activeUsers =
      ((commits.filterMap loginOf).dedup).length := by
  unfold fetchCommitDataClient
  rw [if_neg hrep]
  constructor
  · exact (buildLeaderboard_length repositories commits prs).symm
  · show (userTotalCommits commits).length = ((commits.filterMap loginOf).dedup).length
    have hkeys : ∀ u, u ∈ (userTotalCommits commits).map Prod.fst ↔
        u ∈ (commits.filterMap loginOf).dedup := by
      intro u
      rw [List.mem_dedup, List.mem_filterMap]
      unfold userTotalCommits
      rw [totals_keys u commits []]
      simp
    have hperm : ((userTotalCommits commits).map Prod.fst).Perm
        (commits.filterMap loginOf).dedup :=
      (List.perm_ext_iff_of_nodup (totals_keys_nodup commits) (commits.filterMap loginOf).nodup_dedup).mpr hkeys
    calc (userTotalCommits commits).length
        = ((userTotalCommits commits).map Prod.fst).length := (List.length_map _ _).symm
      _ = _ := hperm.length_eq

theorem C10_activeUsers_witness :
    ([witRepoC1] : List Repository) ≠ [] ∧
    ((fetchCommitDataClient [witRepoC1] [witCommitC1] []).activeUsers =
      (fetchCommitDataClient [witRepoC1] [witCommitC1] []).leaderboard.length ∧
    (fetchCommitDataClient [witRepoC1] [witCommitC1] []).activeUsers =
      (([witCommitC1].filterMap loginOf).dedup).length) :=
  ⟨by decide, C10_activeUsers [witRepoC1] [witCommitC1] [] (by decide)⟩

/-! ## Claim C6 -/

theorem analyzeCommits_leaderboard (repositories : List Repository)
    (commits : List GitHubCommit) (prs : List PRLabelResult) :
    (analyzeCommits repositories commits prs).leaderboard =
      buildLeaderboard repositories commits prs := rfl

/-- C6: the leaderboard has exactly one entry per distinct usable author
login among the input commits (entries exist even for authors with zero AI
commits), and commits with a null or empty login contribute no entry. -/
theorem C6_one_entry_per_login (repositories : List Repository) (commits : List GitHubCommit)
    (prs : List PRLabelResult) (hrep : repositories ≠ []) :
    (((fetchCommitDataClient repositories commits prs).leaderboard.map
        fun e => e.username).Nodup) ∧
    (∀ u, (∃ e ∈ (fetchCommitDataClient repositories commits prs).leaderboard,
        e.username = u) ↔ ∃ c ∈ commits, loginOf c = some u) := by
  unfold fetchCommitDataClient
  rw [if_neg hrep, analyzeCommits_leaderboard]
  have hperm := buildLeaderboard_usernames_perm repositories commits prs
  constructor
  · exact hperm.nodup_iff.mpr (totals_keys_nodup commits)
  · intro u
    have hmem : (∃ e ∈ buildLeaderboard repositories commits prs, e.username = u) ↔
        u ∈ (buildLeaderboard repositories commits prs).map fun e => e.username := by
      simp
    rw [hmem, hperm.mem_iff]
    unfold userTotalCommits
    rw [totals_keys u commits []]
    simp

theorem C6_one_entry_per_login_witness :
    ([witRepoC1] : List Repository) ≠ [] ∧
    ((((fetchCommitDataClient [witRepoC1] [witCommitC1] []).leaderboard.map
        fun e => e.username).Nodup) ∧
    (∀ u, (∃ e ∈ (fetchCommitDataClient [witRepoC1] [witCommitC1] []).leaderboard,
        e.username = u) ↔ ∃ c ∈ [witCommitC1], loginOf c = some u)) :=
  ⟨by decide, C6_one_entry_per_login [witRepoC1] [witCommitC1] [] (by decide)⟩

/-! ## Claim C7 -/

theorem buildLeaderboard_rank (repositories : List Repository) (commits : List GitHubCommit)
    (prs : List PRLabelResult) (i : Nat)
    (h : i < (buildLeaderboard repositories commits prs).length) :
    ((buildLeaderboard repositories commits prs).get ⟨i, h⟩).rank = i + 1 := by
  unfold buildLeaderboard at h ⊢
  have h' : i < (List.insertionSort entryLe (entriesBase repositories commits prs)).length := by
    rw [← assignRanks_length 1]
    exact h
  rw [assignRanks_get 1 _ i h h']
  simp [Nat.add_comm]

/-- C7: the leaderboard is sorted descending by AI commit count with ties
broken by total commit count descending, and each entry's rank is its
1-based position in the final order. -/
theorem C7_sorted_and_ranked (repositories : List Repository) (commits : List GitHubCommit)
    (prs : List PRLabelResult) :
    ((fetchCommitDataClient repositories commits prs).leaderboard.Pairwise fun a b =>
      b.commits < a.commits ∨ (a.commits = b.commits ∧ b.totalCommits ≤ a.totalCommits)) ∧
    ∀ (i : Nat) (h : i < (fetchCommitDataClient repositories commits prs).leaderboard.length),
      ((fetchCommitDataClient repositories commits prs).leaderboard.get ⟨i, h⟩).rank = i + 1 := by
  unfold fetchCommitDataClient
  by_cases hrep : repositories = []
  · rw [if_pos hrep]
    refine ⟨by simp, fun i h => ?_⟩
    simp at h
  · rw [if_neg hrep]
    constructor
    · show (buildLeaderboard repositories commits prs).Pairwise entryLe
      unfold buildLeaderboard
      exact assignRanks_pairwise (fun a b i j hab => hab)
        (List.sorted_insertionSort entryLe (entriesBase repositories commits prs))
    · intro i h
      exact buildLeaderboard_rank repositories commits prs i h

theorem C7_sorted_and_ranked_witness :
    ∃ h : 0 < (fetchCommitDataClient [witRepoC1] [witCommitC1] []).leaderboard.length,
      ((fetchCommitDataClient [witRepoC1] [witCommitC1] []).leaderboard.get ⟨0, h⟩).rank =
        0 + 1 :=
  ⟨by decide, (C7_sorted_and_ranked [witRepoC1] [witCommitC1] []).2 0 (by decide)⟩

/-! ## Claim C5 -/

/-- C5: message-based detection always wins — a PR label for an
already-classified SHA never changes that classification; and when
detection returns none, a PR-label result whose SHA is among the fetched
commits (the first such result for that SHA) does set the classification. -/
theorem C5_label_precedence (commits : List GitHubCommit) (prs : List PRLabelResult)
    (hsha : (commits.map fun c => c.sha).Nodup) (c : GitHubCommit) (hc : c ∈ commits) :
    (∀ d, detectAITool c.message = some d →
      ∀ e ∈ aiEntries commits prs, e.commit.sha = c.sha →
        e.aiTool = d.aiTool ∧ e.claudeModel = d.claudeModel) ∧
    (detectAITool c.message = none →
      ∀ pr0, prs.find? (fun p => p.sha == c.sha) = some pr0 →
        ∃ e ∈ aiEntries commits prs, e.commit.sha = c.sha ∧ e.aiTool = pr0.aiTool) := by
  have hidx : ∀ k v, lookupA k (commitIndex commits) = some v → v.sha = k :=
    fun k v h => (commitIndex_value h).1
  constructor
  · intro d hd e he hes
    rw [aiEntries_eq] at he
    rcases List.mem_append.mp he with hdet | hadd
    · obtain ⟨hmem, hdet2⟩ := mem_detectedEntries hdet
      have hcc : e.commit = c := List.inj_on_of_nodup_map hsha hmem hc hes
      rw [hcc, hd] at hdet2
      have heq := Option.some.inj hdet2
      constructor
      · rw [heq]
      · rw [heq]
    · have hspec := prAdded_spec hidx prs _ e hadd
      have hcdet : c.sha ∈ (detectedEntries commits).map fun e => e.commit.sha :=
        List.mem_map.mpr
          ⟨{ commit := c, aiTool := d.aiTool, claudeModel := d.claudeModel },
            detectedEntries_entry hc hd, rfl⟩
      exact absurd (by rw [hes]; exact hcdet) hspec.2.2.1
  · intro hnone pr0 hfind
    have hnotdet : c.sha ∉ (detectedEntries commits).map fun e => e.commit.sha := by
      intro hin
      obtain ⟨e', he', hes'⟩ := List.mem_map.mp hin
      obtain ⟨hmem', hdet'⟩ := mem_detectedEntries he'
      have hcc : e'.commit = c := List.inj_on_of_nodup_map hsha hmem' hc hes'
      rw [hcc, hnone] at hdet'
      simp at hdet'
    obtain ⟨cc, hlook⟩ := Option.isSome_iff_exists.mp (sha_mem_commitIndex hc)
    obtain ⟨e, he, h1, h2⟩ := prAdded_exists hidx prs _ c.sha cc pr0 hnotdet hlook hfind
    rw [aiEntries_eq]
    exact ⟨e, List.mem_append_right _ he, h1, h2⟩

/-- A plain commit and a PR-label result for its SHA, used to witness label
precedence. -/
def witCommitC5 : GitHubCommit :=
  { sha := "s2", message := "plain", date := "d", repository := "R"
    author := some { login := "bob", avatar_url := "B" } }

def witPRC5 : PRLabelResult :=
  { sha := "s2", username := "bob", aiTool := .copilot, repo := "R", date := "d" }

theorem C5_label_precedence_witness :
    ((([witCommitC1, witCommitC5].map fun c => c.sha).Nodup) ∧
      witCommitC5 ∈ [witCommitC1, witCommitC5]) ∧
    (detectAITool witCommitC5.message = none →
      ∀ pr0, ([witPRC5].find? fun p => p.sha == witCommitC5.sha) = some pr0 →
        ∃ e ∈ aiEntries [witCommitC1, witCommitC5] [witPRC5],
          e.commit.sha = witCommitC5.sha ∧ e.aiTool = pr0.aiTool) :=
  ⟨⟨by decide, by decide⟩,
    (C5_label_precedence [witCommitC1, witCommitC5] [witPRC5] (by decide)
      witCommitC5 (by decide)).2⟩

/-! ## Claim C2 -/

theorem aiEntries_commit_mem {commits : List GitHubCommit} {prs : List PRLabelResult}
    {e : AICommitEntry} (he : e ∈ aiEntries commits prs) : e.commit ∈ commits := by
  rw [aiEntries_eq] at he
  rcases List.mem_append.mp he with h | h
  · exact (mem_detectedEntries h).1
  · have hidx : ∀ k v, lookupA k (commitIndex commits) = some v → v.sha = k :=
      fun k v hh => (commitIndex_value hh).1
    exact (commitIndex_value (prAdded_spec hidx prs _ e h).2.1).2

/-- An AI-attributed commit whose author is null: it counts in the
top-level totals but produces no leaderboard entry. -/
def noAuthorCommit : GitHubCommit :=
  { sha := "s0", message := "m\n\nCo-authored-by: Claude <x@anthropic.com>"
    date := "d", repository := "R", author := none }

/-- C2 counterexample: with a null-author AI commit, the top-level
`aiCommits` and `totalCommits` are 1 while the leaderboard is empty, so
both roll-up sums fail. -/
theorem C2_counterexample :
    (((fetchCommitDataClient [witRepoC1] [noAuthorCommit] []).leaderboard.map
        fun e => e.commits).sum ≠
      (fetchCommitDataClient [witRepoC1] [noAuthorCommit] []).aiCommits) ∧
    (((fetchCommitDataClient [witRepoC1] [noAuthorCommit] []).leaderboard.map
        fun e => e.totalCommits).sum ≠
      (fetchCommitDataClient [witRepoC1] [noAuthorCommit] []).totalCommits) := by
  decide

/-- C2 amended: when every fetched commit has a usable (non-null,
non-empty) author login, summing `commits` over the leaderboard yields
`aiCommits` and summing `totalCommits` yields `totalCommits`.  Commits
with a null or empty login count in the top-level totals but in no entry,
so the unrestricted claim fails. -/
theorem C2_global_rollup (repositories : List Repository) (commits : List GitHubCommit)
    (prs : List PRLabelResult) (hlog : ∀ c ∈ commits, (loginOf c).isSome) :
    (((fetchCommitDataClient repositories commits prs).leaderboard.map
        fun e => e.commits).sum =
      (fetchCommitDataClient repositories commits prs).aiCommits) ∧
    (((fetchCommitDataClient repositories commits prs).leaderboard.map
        fun e => e.totalCommits).sum =
      (fetchCommitDataClient repositories commits prs).totalCommits) := by
  unfold fetchCommitDataClient
  by_cases hrep : repositories = []
  · rw [if_pos hrep]
    simp
  · rw [if_neg hrep, analyzeCommits_leaderboard]
    constructor
    · show _ = (aiEntries commits prs).length
      rw [buildLeaderboard_map_sum repositories commits prs (fun e => e.commits)
        (fun e r => rfl)]
      rw [entriesBase_map_commits]
      have hcongr : (userTotalCommits commits).map
          (fun p => countOfUser p.1 (userCommitsMap repositories (aiEntries commits prs))) =
          (userTotalCommits commits).map
            (fun p => (aiEntries commits prs).countP
              fun e => loginOf e.commit == some p.1) := by
        apply List.map_congr_left
        intro p _hp
        rw [show userCommitsMap repositories (aiEntries commits prs) =
            (aiEntries commits prs).foldl (userCommitsStep repositories) [] from rfl]
        rw [ucm_count]
        simp [countOfUser, lookupA]
      rw [hcongr]
      have hsplit : (userTotalCommits commits).map
          (fun p => (aiEntries commits prs).countP
            fun e => loginOf e.commit == some p.1) =
          ((userTotalCommits commits).map Prod.fst).map
            (fun u => (aiEntries commits prs).countP
              fun e => loginOf e.commit == some u) := by
        rw [List.map_map]
        rfl
      rw [hsplit]
      apply sum_countP_eq_length (fun (e : AICommitEntry) => loginOf e.commit)
      · exact totals_keys_nodup commits
      · intro e he
        have hcm := aiEntries_commit_mem he
        obtain ⟨u, hu⟩ := Option.isSome_iff_exists.mp (hlog e.commit hcm)
        refine ⟨u, hu, ?_⟩
        unfold userTotalCommits
        rw [totals_keys u commits []]
        exact Or.inr ⟨e.commit, hcm, hu⟩
    · show _ = commits.length
      rw [buildLeaderboard_map_sum repositories commits prs (fun e => e.totalCommits)
        (fun e r => rfl)]
      rw [entriesBase_map_total]
      rw [show userTotalCommits commits = commits.foldl totalsStep [] from rfl, totals_sum]
      simp only [List.map_nil, List.sum_nil, Nat.zero_add]
      exact List.countP_eq_length.mpr (fun c hc => hlog c hc)

theorem C2_global_rollup_witness :
    (∀ c ∈ [witCommitC1, witCommitC5], (loginOf c).isSome) ∧
    ((((fetchCommitDataClient [witRepoC1] [witCommitC1, witCommitC5] []).leaderboard.map
        fun e => e.commits).sum =
      (fetchCommitDataClient [witRepoC1] [witCommitC1, witCommitC5] []).aiCommits) ∧
     (((fetchCommitDataClient [witRepoC1] [witCommitC1, witCommitC5] []).leaderboard.map
        fun e => e.totalCommits).sum =
      (fetchCommitDataClient [witRepoC1] [witCommitC1, witCommitC5] []).totalCommits)) :=
  ⟨by decide, C2_global_rollup [witRepoC1] [witCommitC1, witCommitC5] [] (by decide)⟩

/-! ## Claim C8 -/

/-- Modelled from the claim's wording for comparison with the code: the
first configured label in rule order (`AI_PR_LABELS` order) carried by the
PR. -/
def specRuleOrderTool (labels : List String) : Option AITool :=
  (AI_PR_LABELS.find? fun l => labels.contains l).bind labelToTool

/-- Whenever processing one search item pushes a result, its tool comes
from the first label in the PR's own label list that maps to a tool. -/
theorem processPRItem_tool (lookup : Repository → Nat → Option PRData) (repo : Repository)
    (st : PRState) (item : PRItem) (key : String) (res : PRLabelResult)
    (h : (processPRItem lookup repo st item).results = st.results ++ [(key, res)]) :
    some res.aiTool = (item.labels.find? fun l => (labelToTool l).isSome).bind labelToTool := by
  rcases processPRItem_cases lookup repo st item with heq | heq | ⟨_hseen, res1, hlab, heq⟩
  · rw [heq] at h
    have := congrArg List.length h
    simp at this
  · rw [heq] at h
    have := congrArg List.length h
    simp at this
  · rw [heq] at h
    simp only at h
    have hpair : (prKeyOf repo item.number, res1) = (key, res) := by
      simpa using List.append_cancel_left h
    have hres : res1 = res := congrArg Prod.snd hpair
    rw [hlab, hres]

theorem processPRItem_inv (lookup : Repository → Nat → Option PRData) (repo : Repository)
    (st : PRState) (item : PRItem)
    (h : (st.results.map Prod.fst).Nodup ∧ ∀ k ∈ st.results.map Prod.fst, k ∈ st.seen) :
    ((processPRItem lookup repo st item).results.map Prod.fst).Nodup ∧
    ∀ k ∈ (processPRItem lookup repo st item).results.map Prod.fst,
      k ∈ (processPRItem lookup repo st item).seen := by
  obtain ⟨h1, h2⟩ := h
  rcases processPRItem_cases lookup repo st item with heq | heq | ⟨hseen, res, _hlab, heq⟩ <;>
    rw [heq]
  · exact ⟨h1, h2⟩
  · exact ⟨h1, fun k hk => List.mem_cons_of_mem _ (h2 k hk)⟩
  · constructor
    · simp only [List.map_append, List.map_cons, List.map_nil]
      rw [List.nodup_append]
      refine ⟨h1, by simp, ?_⟩
      intro k hk
      simp only [List.mem_singleton]
      intro hkk
      subst hkk
      exact hseen (h2 _ hk)
    · intro k hk
      simp only [List.map_append, List.map_cons, List.map_nil, List.mem_append,
        List.mem_singleton] at hk
      rcases hk with hk | rfl
      · exact List.mem_cons_of_mem _ (h2 k hk)
      · exact List.mem_cons_self _ _

theorem fetchKeyed_nodup (search : Repository → String → List PRItem)
    (lookup : Repository → Nat → Option PRData) (repositories : List Repository) :
    ((fetchAILabeledPRsKeyed search lookup repositories).map Prod.fst).Nodup := by
  unfold fetchAILabeledPRsKeyed
  have hInv := foldl_preserve
    (fun st : PRState => (st.results.map Prod.fst).Nodup ∧
      ∀ k ∈ st.results.map Prod.fst, k ∈ st.seen)
    (fun st repo =>
      AI_PR_LABELS.foldl
        (fun st label => (search repo label).foldl (processPRItem lookup repo) st) st)
    repositories { seen := [], results := [] } (by simp)
    (fun st repo _hr hst =>
      foldl_preserve _ _ AI_PR_LABELS st hst
        (fun st2 label _hl hst2 =>
          foldl_preserve _ _ (search repo label) st2 hst2
            (fun st3 item _hi hst3 => processPRItem_inv lookup repo st3 item hst3)))
  exact hInv.1

/-- Repository, item, search and lookup used to refute the rule-order part
of the claim. -/
def cexRepoC8 : Repository := { owner := "o", name := "r", displayName := "R8" }

def cexItemC8 : PRItem :=
  { number := 1, labels := ["ai-codex", "ai-claude-code"], userLogin := some "alice" }

def cexSearchC8 : Repository → String → List PRItem := fun _ label =>
  if label = "ai-claude-code" ∨ label = "ai-codex" then [cexItemC8] else []

def cexLookupC8 : Repository → Nat → Option PRData := fun _ _ =>
  some { mergeCommitSha := some "m1", userLogin := some "alice", mergedAt := some "t" }

/-- C8 counterexample: a PR carrying both `ai-codex` and `ai-claude-code`
(in that order in its own label list) contributes `codex`, because the
code takes the first mapped label in the PR's label-list order; the first
matching label in rule order would be `ai-claude-code` → claude-generated. -/
theorem C8_counterexample :
    fetchAILabeledPRs cexSearchC8 cexLookupC8 [cexRepoC8] =
      [{ sha := "m1", username := "alice", aiTool := .codex, repo := "R8", date := "t" }] ∧
    specRuleOrderTool cexItemC8.labels = some AITool.claudeGenerated ∧
    AITool.codex ≠ AITool.claudeGenerated := by
  refine ⟨by decide, by decide, by decide⟩

/-- C8 amended: each PR contributes at most one result (deduplicated by PR
identity — the keyed result list has no duplicate keys, and the source's
result list is its projection); a PR with several configured labels
contributes the first mapped label in the PR's own label-list order (not
rule order); and at consumption two PRs resolving to the same merge SHA
yield at most one classification, that of the first result in list order
(first writer wins, never overwritten). -/
theorem C8_pr_label_resolution (search : Repository → String → List PRItem)
    (lookup : Repository → Nat → Option PRData) (repositories : List Repository)
    (commits : List GitHubCommit) (prs : List PRLabelResult) (s : String)
    (pr0 : PRLabelResult) (hfind : prs.find? (fun p => p.sha == s) = some pr0) :
    ((fetchAILabeledPRsKeyed search lookup repositories).map Prod.fst).Nodup ∧
    fetchAILabeledPRs search lookup repositories =
      (fetchAILabeledPRsKeyed search lookup repositories).map Prod.snd ∧
    (∀ (lookup2 : Repository → Nat → Option PRData) (repo : Repository) (st : PRState)
        (item : PRItem) (key : String) (res : PRLabelResult),
      (processPRItem lookup2 repo st item).results = st.results ++ [(key, res)] →
      some res.aiTool =
        (item.labels.find? fun l => (labelToTool l).isSome).bind labelToTool) ∧
    (∀ e ∈ prAdded (commitIndex commits) prs
        ((detectedEntries commits).map fun e => e.commit.sha),
      e.commit.sha = s → e.aiTool = pr0.aiTool) ∧
    ((prAdded (commitIndex commits) prs
        ((detectedEntries commits).map fun e => e.commit.sha)).map
      fun e => e.commit.sha).Nodup := by
  have hidx : ∀ k v, lookupA k (commitIndex commits) = some v → v.sha = k :=
    fun k v h => (commitIndex_value h).1
  refine ⟨fetchKeyed_nodup search lookup repositories, rfl,
    fun lookup2 repo st item key res h => processPRItem_tool lookup2 repo st item key res h,
    ?_, prAdded_sha_nodup hidx prs _⟩
  intro e he hes
  exact prAdded_first hidx prs _ s pr0 hfind e he hes

theorem C8_pr_label_resolution_witness :
    (([witPRC5].find? fun p => p.sha == "s2") = some witPRC5) ∧
    ((fetchAILabeledPRsKeyed cexSearchC8 cexLookupC8 [cexRepoC8]).map Prod.fst).Nodup :=
  ⟨by decide,
    (C8_pr_label_resolution cexSearchC8 cexLookupC8 [cexRepoC8] [] [witPRC5] "s2" witPRC5
      (by decide)).1⟩
